import Mathlib

/-
Verification of the BrainVoyager binary-header engine
(`nibabel/brainvoyager/bv.py`): a shallow embedding of the descriptor
language and of the five operations `readCString`, `parse_BV_header`,
`pack_BV_header`, `calc_BV_header_size`, `update_BV_header` and
`_proto2default`, together with theorems settling the specification
claims about them.

Modelling conventions:
- a byte stream is a `List Nat` (the file object is modelled by the
  remaining stream; `f.read`/`f.seek` become `List.take`/`List.drop`);
- Python values stored in a header dict are modelled by `BVVal`:
  machine floats are modelled by their raw little-endian 32-bit pattern
  (`BVVal.flt bits`), so `struct.unpack` of an `f` field keeps the four
  bytes as a number; Python `==` between header values is modelled by
  the structural test `bvBeq` (cross-type numeric equality such as
  `2 == 2.0` and int-to-float coercion in `struct.pack` are outside the
  model; no descriptor of the repository compares across types);
- an `OrderedDict` is an ordered association list `BVMap`; assignment
  keeps the position of an existing key and appends a fresh one, as in
  Python;
- a Python exception (KeyError, IndexError, TypeError, struct.error,
  AttributeError) is modelled by `none`;
- the recursive engines take an explicit recursion-depth argument so
  that they are structurally recursive and computable; the public
  wrappers instantiate it with `protoListSize`, which always dominates
  the descriptor nesting depth, so the wrappers agree with the
  unbounded Python recursion.
-/

namespace BV

/-- Byte streams: a list of byte values. -/
abbrev Bytes := List Nat

/-- Values stored in a header mapping: Python ints, floats (as raw
32-bit patterns), byte strings, lists of nested mappings, and the empty
dict used as a placeholder by the default synthesizer. -/
inductive BVVal where
  | int (i : Int)
  | flt (bits : Nat)
  | str (s : Bytes)
  | grp (elems : List (List (String × BVVal)))
  | emptyDict

/-- A header mapping (Python `OrderedDict`): ordered key-value pairs. -/
abbrev BVMap := List (String × BVVal)

mutual

/-- Python `==` on header values (structural; lists and dicts compare
element-wise, mirroring Python list/dict equality). -/
def bvBeq : BVVal → BVVal → Bool
  | .int a, .int b => a == b
  | .flt a, .flt b => a == b
  | .str a, .str b => a == b
  | .grp a, .grp b => grpBeq a b
  | .emptyDict, .emptyDict => true
  | _, _ => false

/-- Python `==` on lists of mappings. -/
def grpBeq : List (List (String × BVVal)) → List (List (String × BVVal)) → Bool
  | [], [] => true
  | m :: ms, m' :: ms' => mapBeq m m' && grpBeq ms ms'
  | _, _ => false

/-- Python `==` on mappings. -/
def mapBeq : List (String × BVVal) → List (String × BVVal) → Bool
  | [], [] => true
  | (k, v) :: r, (k', v') :: r' => k == k' && bvBeq v v' && mapBeq r r'
  | _, _ => false

end

/-- Dictionary lookup, `d[k]`: first (and, for maps built by `mapSet`,
only) binding of `k`.  `none` models a KeyError. -/
def mapGet : BVMap → String → Option BVVal
  | [], _ => none
  | (k', v) :: rest, k => if k' = k then some v else mapGet rest k

/-- Python `k in d`. -/
def hasKey (m : BVMap) (k : String) : Bool :=
  (mapGet m k).isSome

/-- Dictionary assignment `d[k] = v`: replaces the binding in place
(keeping its position) or appends a fresh binding, like a Python dict. -/
def mapSet : BVMap → String → BVVal → BVMap
  | [], k, v => [(k, v)]
  | (k', v') :: rest, k, v =>
      if k' = k then (k, v) :: rest else (k', v') :: mapSet rest k v

/-- Python `del d[k]`: removes the binding, KeyError (`none`) if absent. -/
def mapDel : BVMap → String → Option BVMap
  | [], _ => none
  | (k', v') :: rest, k =>
      if k' = k then some rest else (mapDel rest k).map (fun r => (k', v') :: r)

/-- The value of a nested-group field (`hdr_dict[name]` used as a list);
`none` models the TypeError/AttributeError a non-list value raises. -/
def asGrpVal : BVVal → Option (List BVMap)
  | .grp l => some l
  | _ => none

/-- The value of a repeat-count field used by `range(...)`; `none`
models the TypeError a non-integer raises. -/
def asIntVal : BVVal → Option Int
  | .int i => some i
  | _ => none

/-! ### The descriptor model

A Python proto entry `(name, pack_format, def_or_name)` is one of:
a scalar with a plain default, a scalar with a conditional 3-tuple
`(default, c_fields_name, c_fields_value)`, or a nested group whose
`def_or_name` is the repeat-count field name.  The `'z'` string format
is a scalar format code. -/

/-- The scalar pack-format codes of the source: `z` (zero-terminated
string), `b`, `B`, `h`, `i`, `I`, `f`. -/
inductive Fmt where
  | fz | fb | fB | fh | fi | fI | ff
deriving DecidableEq

/-- The `def_or_name` entry of a scalar field: plain default, or the
conditional tuple `(default, c_fields_name, c_fields_value)`. -/
inductive ScalarSpec where
  | plain (dflt : BVVal)
  | cond (dflt : BVVal) (cname : String) (cval : BVVal)

/-- One descriptor entry. -/
inductive ProtoField where
  | scalar (name : String) (fmt : Fmt) (spec : ScalarSpec)
  | group (name : String) (sub : List ProtoField) (countName : String)

/-- The field name of a descriptor entry. -/
def ProtoField.fname : ProtoField → String
  | .scalar n _ _ => n
  | .group n _ _ => n

/-- The names declared by a descriptor list. -/
def protoNames (l : List ProtoField) : List String :=
  l.map ProtoField.fname

mutual

/-- Total number of descriptor entries, nested entries included.  Used
as a recursion-depth budget: it strictly dominates the nesting depth. -/
def protoSize : ProtoField → Nat
  | .scalar _ _ _ => 1
  | .group _ sub _ => 1 + protoListSize sub

/-- Total number of entries of a descriptor list, nested included. -/
def protoListSize : List ProtoField → Nat
  | [] => 0
  | f :: rest => protoSize f + protoListSize rest

end

/-! ### Fixed-width little-endian scalar codec (`struct` module) -/

/-- `struct.calcsize` of a scalar format code (the `z` code is never
passed to `struct` by the source; its byte length is `len(value) + 1`). -/
def fmtSize : Fmt → Nat
  | .fz => 0
  | .fb => 1
  | .fB => 1
  | .fh => 2
  | .fi => 4
  | .fI => 4
  | .ff => 4

/-- Whether a fixed-width integer code is signed. -/
def fmtSigned : Fmt → Bool
  | .fb => true
  | .fh => true
  | .fi => true
  | _ => false

/-- Little-endian value of a byte list (first byte least significant). -/
def leNat : Bytes → Nat
  | [] => 0
  | b :: rest => b + 256 * leNat rest

/-- The `w` little-endian bytes of a value. -/
def leBytes : Nat → Nat → Bytes
  | 0, _ => []
  | w + 1, x => x % 256 :: leBytes w (x / 256)

/-- Two-complement reading of a `w`-byte unsigned value as signed. -/
def toSigned (w : Nat) (x : Nat) : Int :=
  if x < 2 ^ (8 * w - 1) then (x : Int) else (x : Int) - 2 ^ (8 * w)

/-- `struct.unpack('<' + fmt, chunk)[0]` on a `fmtSize fmt`-byte chunk. -/
def unpackVal (fmt : Fmt) (chunk : Bytes) : BVVal :=
  match fmt with
  | .ff => .flt (leNat chunk)
  | f => if fmtSigned f then .int (toSigned (fmtSize f) (leNat chunk))
         else .int (leNat chunk)

/-- `struct.pack('<' + fmt, v)`: `none` models the struct.error raised
for out-of-range integers and for values of the wrong type. -/
def packVal (fmt : Fmt) (v : BVVal) : Option Bytes :=
  match fmt, v with
  | .ff, .flt bits => if bits < 2 ^ 32 then some (leBytes 4 bits) else none
  | .ff, _ => none
  | .fz, _ => none
  | f, .int i =>
      if fmtSigned f then
        if -(2 ^ (8 * fmtSize f - 1) : Int) ≤ i ∧ i < 2 ^ (8 * fmtSize f - 1)
        then some (leBytes (fmtSize f) (i % (2 ^ (8 * fmtSize f) : Int)).toNat)
        else none
      else
        if 0 ≤ i ∧ i < 2 ^ (8 * fmtSize f)
        then some (leBytes (fmtSize f) i.toNat)
        else none
  | _, _ => none

/-! ### The string scanner `readCString` -/

/-- Python `data.split(b'\x00')`: always returns at least one chunk;
the chunks carry no zero byte. -/
def splitOnZero : Bytes → List Bytes
  | [] => [[]]
  | b :: rest =>
      if b = 0 then [] :: splitOnZero rest
      else
        match splitOnZero rest with
        | l :: ls => (b :: l) :: ls
        | [] => [[b]]

/-- `readCString(f, nStrings, bufsize, startPos=None, strip, rewind)`.
`s` is the stream from the current file position; the result is the
returned string list together with the offset by which the file cursor
advances.  `none` models the IndexError raised when the lookahead
window splits into fewer than `nStrings` chunks. -/
def readCString (s : Bytes) (nStrings bufsize : Nat) (strip rewind : Bool) :
    Option (List Bytes × Nat) :=
  let lines := splitOnZero (s.take bufsize)
  if nStrings ≤ lines.length then
    some ((lines.take nStrings).map (fun l => if strip then l else l ++ [0]),
          if rewind then 0
          else ((lines.take nStrings).map (fun l => l.length + 1)).sum)
  else none

/-! ### The binary decoder `parse_BV_header` -/

/-- Repeat-count resolution shared verbatim by the decoder, encoder and
size calculator: look the count-field name up in the local mapping
first, else in the parent mapping (`none` models the KeyError/TypeError
when both fail or no parent was passed). -/
def resolveCount (local_ : BVMap) (parent : Option BVMap) (c : String) :
    Option BVVal :=
  if hasKey local_ c then mapGet local_ c
  else match parent with
       | some p => mapGet p c
       | none => none

/-- The nested-group loop of the decoder: run the element decoder `step`
`k` times, threading the stream. -/
def parseLoop (step : Bytes → Option (BVMap × Bytes)) :
    Nat → Bytes → Option (List BVMap × Bytes)
  | 0, s => some ([], s)
  | k + 1, s =>
      match step s with
      | none => none
      | some (m, s') =>
          match parseLoop step k s' with
          | none => none
          | some (ms, s'') => some (m :: ms, s'')

/-- One layer of `parse_BV_header`; `rec` performs the recursive call on
a nested descriptor.  The accumulator `acc` is the `hdr_dict` being
built; field dispatch follows the source: `z` strings first, then
nested groups, then conditional scalars, then plain scalars. -/
def parseGo (rec : List ProtoField → Bytes → Option BVMap → BVMap →
    Option (BVMap × Bytes)) :
    List ProtoField → Bytes → Option BVMap → BVMap → Option (BVMap × Bytes)
  | [], s, _, acc => some (acc, s)
  | .scalar n fmt spec :: rest, s, par, acc =>
      if fmt = .fz then
        match readCString s 1 1000 true false with
        | none => none
        | some (strs, off) =>
            match strs.head? with
            | none => none
            | some v => parseGo rec rest (s.drop off) par (mapSet acc n (.str v))
      else
        match spec with
        | .cond dflt c cv =>
            match mapGet acc c with
            | none => none
            | some g =>
                if bvBeq g cv then
                  if s.length < fmtSize fmt then none
                  else parseGo rec rest (s.drop (fmtSize fmt)) par
                         (mapSet acc n (unpackVal fmt (s.take (fmtSize fmt))))
                else parseGo rec rest s par (mapSet acc n dflt)
        | .plain _ =>
            if s.length < fmtSize fmt then none
            else parseGo rec rest (s.drop (fmtSize fmt)) par
                   (mapSet acc n (unpackVal fmt (s.take (fmtSize fmt))))
  | .group n sub c :: rest, s, par, acc =>
      match resolveCount acc par c with
      | none => none
      | some cv =>
          match asIntVal cv with
          | none => none
          | some k =>
              match parseLoop (fun st => rec sub st (some acc) []) k.toNat s with
              | none => none
              | some (els, s') =>
                  parseGo rec rest s' par (mapSet acc n (.grp els))

/-- Depth-indexed decoder (depth only decreases on entering a nested
descriptor, mirroring the Python recursion). -/
def parseD : Nat → List ProtoField → Bytes → Option BVMap → BVMap →
    Option (BVMap × Bytes)
  | 0 => parseGo (fun _ _ _ _ => none)
  | d + 1 => parseGo (parseD d)

/-- `parse_BV_header(hdr_dict_proto, fileobj, parent_hdr_dict)`: returns
the parsed mapping and the remaining stream. -/
def parse_BV_header (proto : List ProtoField) (s : Bytes)
    (parent : Option BVMap) : Option (BVMap × Bytes) :=
  parseD (protoListSize proto) proto s parent []

/-! ### The binary encoder `pack_BV_header`

The encoder is modelled with the header dict (and the parent dict)
threaded through explicitly, so that the claim that encoding leaves the
mapping unchanged is a theorem about the model rather than an artifact
of it.  Each Python dict operation acts on the latest threaded state;
the source contains no write, so the theorems below show the state is
returned unchanged. -/

/-- The nested-group loop of the encoder: `value[i]` indexing plus the
recursive call `pack_BV_header(format, value[i], hdr_dict)`; the element
dict returned by the callee is written back into the list (list
aliasing), and the threaded caller dict continues as the parent returned
by the callee. -/
def packLoop (step : BVMap → BVMap → Option (Bytes × BVMap × Option BVMap))
    (name : String) : BVVal → Nat → Nat → BVMap → Option (Bytes × BVMap)
  | _, _, 0, h => some ([], h)
  | v, i, k + 1, h =>
      match asGrpVal v with
      | none => none
      | some els =>
          match els[i]? with
          | none => none
          | some e =>
              match step e h with
              | none => none
              | some (b, e', p') =>
                  match p' with
                  | none => none
                  | some h' =>
                      match packLoop step name (.grp (els.set i e')) (i + 1) k
                          (mapSet h' name (.grp (els.set i e'))) with
                      | none => none
                      | some (bs, hf) => some (b ++ bs, hf)

/-- One layer of `pack_BV_header`, returning the bytes together with the
final local dict and parent dict. -/
def packGo (rec : List ProtoField → BVMap → Option BVMap →
    Option (Bytes × BVMap × Option BVMap)) :
    List ProtoField → BVMap → Option BVMap → Option (Bytes × BVMap × Option BVMap)
  | [], h, p => some ([], h, p)
  | .scalar n fmt spec :: rest, h, p =>
      match mapGet h n with
      | none => none
      | some v =>
          if fmt = .fz then
            match v with
            | .str sv =>
                (match packGo rec rest h p with
                 | none => none
                 | some (bs, h', p') => some ((sv ++ [0]) ++ bs, h', p'))
            | _ => none
          else
            match spec with
            | .cond _ c cv =>
                (match mapGet h c with
                 | none => none
                 | some g =>
                     if bvBeq g cv then
                       match packVal fmt v with
                       | none => none
                       | some b =>
                           match packGo rec rest h p with
                           | none => none
                           | some (bs, h', p') => some (b ++ bs, h', p')
                     else packGo rec rest h p)
            | .plain _ =>
                (match packVal fmt v with
                 | none => none
                 | some b =>
                     match packGo rec rest h p with
                     | none => none
                     | some (bs, h', p') => some (b ++ bs, h', p'))
  | .group n sub c :: rest, h, p =>
      match mapGet h n with
      | none => none
      | some v =>
          match resolveCount h p c with
          | none => none
          | some cv =>
              match asIntVal cv with
              | none => none
              | some k =>
                  match packLoop (fun e cur => rec sub e (some cur)) n v 0
                      k.toNat h with
                  | none => none
                  | some (b, h1) =>
                      match packGo rec rest h1 p with
                      | none => none
                      | some (bs, h', p') => some (b ++ bs, h', p')

/-- Depth-indexed encoder. -/
def packD : Nat → List ProtoField → BVMap → Option BVMap →
    Option (Bytes × BVMap × Option BVMap)
  | 0 => packGo (fun _ _ _ => none)
  | d + 1 => packGo (packD d)

/-- `pack_BV_header(hdr_dict_proto, hdr_dict, parent_hdr_dict)`: the
binary block (the Python function returns only the bytes). -/
def pack_BV_header (proto : List ProtoField) (hdr : BVMap)
    (parent : Option BVMap) : Option Bytes :=
  (packD (protoListSize proto) proto hdr parent).map (fun r => r.1)

/-! ### The size calculator `calc_BV_header_size` -/

/-- The Python `len(value)` of a header value (`len` works on strings,
lists and dicts, TypeError otherwise). -/
def pyLen : BVVal → Option Nat
  | .str sv => some sv.length
  | .grp l => some l.length
  | .emptyDict => some 0
  | _ => none

/-- The nested-group loop of the size calculator (same threading as the
encoder loop). -/
def calcLoop (step : BVMap → BVMap → Option (Nat × BVMap × Option BVMap))
    (name : String) : BVVal → Nat → Nat → BVMap → Option (Nat × BVMap)
  | _, _, 0, h => some (0, h)
  | v, i, k + 1, h =>
      match asGrpVal v with
      | none => none
      | some els =>
          match els[i]? with
          | none => none
          | some e =>
              match step e h with
              | none => none
              | some (b, e', p') =>
                  match p' with
                  | none => none
                  | some h' =>
                      match calcLoop step name (.grp (els.set i e')) (i + 1) k
                          (mapSet h' name (.grp (els.set i e'))) with
                      | none => none
                      | some (bs, hf) => some (b + bs, hf)

/-- One layer of `calc_BV_header_size`. -/
def calcGo (rec : List ProtoField → BVMap → Option BVMap →
    Option (Nat × BVMap × Option BVMap)) :
    List ProtoField → BVMap → Option BVMap → Option (Nat × BVMap × Option BVMap)
  | [], h, p => some (0, h, p)
  | .scalar n fmt spec :: rest, h, p =>
      match mapGet h n with
      | none => none
      | some v =>
          if fmt = .fz then
            match pyLen v with
            | none => none
            | some l =>
                match calcGo rec rest h p with
                | none => none
                | some (sz, h', p') => some ((l + 1) + sz, h', p')
          else
            match spec with
            | .cond _ c cv =>
                (match mapGet h c with
                 | none => none
                 | some g =>
                     if bvBeq g cv then
                       match calcGo rec rest h p with
                       | none => none
                       | some (sz, h', p') => some (fmtSize fmt + sz, h', p')
                     else calcGo rec rest h p)
            | .plain _ =>
                (match calcGo rec rest h p with
                 | none => none
                 | some (sz, h', p') => some (fmtSize fmt + sz, h', p'))
  | .group n sub c :: rest, h, p =>
      match mapGet h n with
      | none => none
      | some v =>
          match resolveCount h p c with
          | none => none
          | some cv =>
              match asIntVal cv with
              | none => none
              | some k =>
                  match calcLoop (fun e cur => rec sub e (some cur)) n v 0
                      k.toNat h with
                  | none => none
                  | some (b, h1) =>
                      match calcGo rec rest h1 p with
                      | none => none
                      | some (sz, h', p') => some (b + sz, h', p')

/-- Depth-indexed size calculator. -/
def calcD : Nat → List ProtoField → BVMap → Option BVMap →
    Option (Nat × BVMap × Option BVMap)
  | 0 => calcGo (fun _ _ _ => none)
  | d + 1 => calcGo (calcD d)

/-- `calc_BV_header_size(hdr_dict_proto, hdr_dict, parent_hdr_dict)`. -/
def calc_BV_header_size (proto : List ProtoField) (hdr : BVMap)
    (parent : Option BVMap) : Option Nat :=
  (calcD (protoListSize proto) proto hdr parent).map (fun r => r.1)

/-! ### The default synthesizer `_proto2default` -/

/-- The nested-group loop of the default synthesizer: every element is
the same recursive synthesis (the surrounding dict does not change
during the loop). -/
def p2dLoop (step : Option BVMap) : Nat → Option (List BVMap)
  | 0 => some []
  | k + 1 =>
      match step with
      | none => none
      | some e =>
          match p2dLoop step k with
          | none => none
          | some es => some (e :: es)

/-- One layer of `_proto2default`.  Every field first receives the empty
dict as a placeholder (`default_hdr[name] = {}` in the source) and is
then overwritten by its branch; a conditional field whose governing
default does not satisfy the condition keeps the placeholder. -/
def p2dGo (rec : List ProtoField → Option BVMap → BVMap → Option BVMap) :
    List ProtoField → Option BVMap → BVMap → Option BVMap
  | [], _, acc => some acc
  | .scalar n _ spec :: rest, parent, acc =>
      match spec with
      | .cond dflt c cv =>
          (match mapGet (mapSet acc n .emptyDict) c with
           | none => none
           | some g =>
               if bvBeq g cv then
                 p2dGo rec rest parent (mapSet (mapSet acc n .emptyDict) n dflt)
               else p2dGo rec rest parent (mapSet acc n .emptyDict))
      | .plain dflt =>
          p2dGo rec rest parent (mapSet (mapSet acc n .emptyDict) n dflt)
  | .group n sub c :: rest, parent, acc =>
      match resolveCount (mapSet acc n .emptyDict) parent c with
      | none => none
      | some cv =>
          match asIntVal cv with
          | none => none
          | some k =>
              match p2dLoop (rec sub (some (mapSet acc n .emptyDict)) []) k.toNat with
              | none => none
              | some els =>
                  p2dGo rec rest parent
                    (mapSet (mapSet acc n .emptyDict) n (.grp els))

/-- Depth-indexed default synthesizer. -/
def p2dD : Nat → List ProtoField → Option BVMap → BVMap → Option BVMap
  | 0 => p2dGo (fun _ _ _ => none)
  | d + 1 => p2dGo (p2dD d)

/-- `_proto2default(proto, parent_default_hdr)` (leading underscore
dropped for Lean). -/
def proto2default (proto : List ProtoField) (parent : Option BVMap) :
    Option BVMap :=
  p2dD (protoListSize proto) proto parent []

/-! ### The structural updater `update_BV_header` -/

/-- The pairwise per-element loop of the structural updater:
`update_BV_header(format, hdr_dict_old[name][i], hdr_dict_new[name][i],
hdr_dict_old, hdr_dict_new)` for `i in range(n_values)`, with the
element update written back in place. -/
def updateLoop (step : BVMap → BVMap → BVMap → Option BVMap) (old : BVMap)
    (name : String) : Nat → Nat → BVMap → Option BVMap
  | _, 0, cur => some cur
  | i, k + 1, cur =>
      match mapGet old name with
      | none => none
      | some ov =>
          match asGrpVal ov with
          | none => none
          | some oldL =>
              match oldL[i]? with
              | none => none
              | some eo =>
                  match mapGet cur name with
                  | none => none
                  | some cv =>
                      match asGrpVal cv with
                      | none => none
                      | some curL =>
                          match curL[i]? with
                          | none => none
                          | some en =>
                              match step eo en cur with
                              | none => none
                              | some en' =>
                                  updateLoop step old name (i + 1) k
                                    (mapSet cur name (.grp (curL.set i en')))

/-- The repeat-count difference and new count used by the structural
updater for one nested-group field: `hdr_dict_new[c] - hdr_dict_old[c]`
when `c` is a key of `hdr_dict_old`, else the same difference on the
parent dicts. -/
def updateDelta (c : String) (old new : BVMap) (pOld pNew : Option BVMap) :
    Option (Int × Int) :=
  if hasKey old c then
    match mapGet new c with
    | none => none
    | some a =>
        match asIntVal a with
        | none => none
        | some ai =>
            match mapGet old c with
            | none => none
            | some b =>
                match asIntVal b with
                | none => none
                | some bi => some (ai - bi, ai)
  else
    match pNew with
    | none => none
    | some pN =>
        match pOld with
        | none => none
        | some pO =>
            match mapGet pN c with
            | none => none
            | some a =>
                match asIntVal a with
                | none => none
                | some ai =>
                    match mapGet pO c with
                    | none => none
                    | some b =>
                        match asIntVal b with
                        | none => none
                        | some bi => some (ai - bi, ai)

/-- The single append (`delta > 0`) or single pop (`delta < 0`) the
source applies to the group list before the pairwise loop. -/
def updateAdjust (sub : List ProtoField) (n : String) (delta : Int)
    (new : BVMap) : Option BVMap :=
  if 0 < delta then
    match mapGet new n with
    | none => none
    | some v =>
        match asGrpVal v with
        | none => none
        | some els =>
            match proto2default sub (some new) with
            | none => none
            | some e => some (mapSet new n (.grp (els ++ [e])))
  else if delta < 0 then
    match mapGet new n with
    | none => none
    | some v =>
        match asGrpVal v with
        | none => none
        | some els =>
            if els.isEmpty then none
            else some (mapSet new n (.grp els.dropLast))
  else some new

/-- One layer of `update_BV_header`. -/
def updateGo (rec : List ProtoField → BVMap → BVMap → Option BVMap →
    Option BVMap → Option BVMap) :
    List ProtoField → BVMap → BVMap → Option BVMap → Option BVMap → Option BVMap
  | [], _, new, _, _ => some new
  | .group n sub c :: rest, old, new, pOld, pNew =>
      match updateDelta c old new pOld pNew with
      | none => none
      | some dn =>
          match updateAdjust sub n dn.1 new with
          | none => none
          | some new1 =>
              match updateLoop
                  (fun eo en cur => rec sub eo en (some old) (some cur))
                  old n 0 dn.2.toNat new1 with
              | none => none
              | some new2 => updateGo rec rest old new2 pOld pNew
  | .scalar n _ (.cond dflt c cv) :: rest, old, new, pOld, pNew =>
      match mapGet old c with
      | none => none
      | some ov =>
          match mapGet new c with
          | none => none
          | some nv =>
              if bvBeq ov nv then updateGo rec rest old new pOld pNew
              else
                if bvBeq nv cv then
                  updateGo rec rest old (mapSet new n dflt) pOld pNew
                else
                  match mapDel new n with
                  | none => none
                  | some new' => updateGo rec rest old new' pOld pNew
  | .scalar _ _ (.plain _) :: rest, old, new, pOld, pNew =>
      updateGo rec rest old new pOld pNew

/-- Depth-indexed structural updater. -/
def updateD : Nat → List ProtoField → BVMap → BVMap → Option BVMap →
    Option BVMap → Option BVMap
  | 0 => updateGo (fun _ _ _ _ _ => none)
  | d + 1 => updateGo (updateD d)

/-- `update_BV_header(hdr_dict_proto, hdr_dict_old, hdr_dict_new,
parent_old, parent_new)`. -/
def update_BV_header (proto : List ProtoField) (old new : BVMap)
    (parentOld parentNew : Option BVMap) : Option BVMap :=
  updateD (protoListSize proto) proto old new parentOld parentNew

/-! ### Descriptor well-formedness

The data model of the specification requires field names to be unique
within their nesting level and repeat-count fields to be already parsed
when a nested group references them (same scope before the group, or
enclosing scope).  `wfFields K proto` checks this for a descriptor list
parsed when the keys `K` are already present in the local mapping. -/

/-- Well-formedness of a descriptor list relative to already-present
keys: names are fresh and pairwise distinct, and a nested-group count
name is never declared at or after its group in the same scope. -/
def wfFields : List String → List ProtoField → Bool
  | _, [] => true
  | K, .scalar n _ _ :: rest =>
      !K.contains n && !(protoNames rest).contains n && wfFields (K ++ [n]) rest
  | K, .group n sub c :: rest =>
      !K.contains n && !(protoNames rest).contains n && !(c == n) &&
      !(protoNames rest).contains c && wfFields [] sub && wfFields (K ++ [n]) rest

/-- Well-formedness of a whole descriptor. -/
def wfProto (proto : List ProtoField) : Bool :=
  wfFields [] proto

/-- The streams handled by the engine carry byte values. -/
def validBytes (s : Bytes) : Prop :=
  ∀ b ∈ s, b < 256

/-- Keys of a mapping, in order. -/
def keysList (m : BVMap) : List String :=
  m.map Prod.fst

/-- Lookups that succeed in a parent mapping also succeed, with the same
value, in an extension of it (used to relate the partially built parent
seen at decode time to the complete parent seen at encode time). -/
def parentLe (p q : Option BVMap) : Prop :=
  ∀ k v, (match p with | some a => mapGet a k | none => none) = some v →
    (match q with | some a => mapGet a k | none => none) = some v

/-! ### Concrete instances used by the claim theorems -/

/-- The descriptor of the specification scenario:
`(("n","i2",0), ("items", (("v","f4",0.0),), "n"))`. -/
def protoC8 : List ProtoField :=
  [.scalar "n" .fh (.plain (.int 0)),
   .group "items" [.scalar "v" .ff (.plain (.flt 0))] "n"]

/-- The ten bytes of the scenario: n=2, items=[1.0f, 2.0f]. -/
def bytesC8 : Bytes := [2, 0, 0, 0, 128, 63, 0, 0, 0, 64]

/-- The expected decode of `bytesC8`: 1065353216 and 1073741824 are the
raw little-endian patterns of the floats 1.0 and 2.0. -/
def mapC8 : BVMap :=
  [("n", .int 2),
   ("items", .grp [[("v", .flt 1065353216)], [("v", .flt 1073741824)]])]

/-- A nested group of size 3 governed by the count field `C`. -/
def protoC1 : List ProtoField :=
  [.scalar "C" .fh (.plain (.int 3)),
   .group "G" [.scalar "v" .fh (.plain (.int 0))] "C"]

/-- One default element of the group of `protoC1`. -/
def elemG : BVMap := [("v", .int 0)]

/-- Mapping with `C = 3` and three group elements. -/
def oldC1 : BVMap := [("C", .int 3), ("G", .grp [elemG, elemG, elemG])]

/-- The same mapping after setting `C` to 5 (group untouched, as a
caller does before reconciling). -/
def newC1 : BVMap := [("C", .int 5), ("G", .grp [elemG, elemG, elemG])]

/-- The mapping of `oldC1` with `C` set to 1 (a shrink by two). -/
def newC1s : BVMap := [("C", .int 1), ("G", .grp [elemG, elemG, elemG])]

/-- A descriptor with a conditional field `B` governed by `A == 1`,
where the default of `A` (0) does not satisfy the condition. -/
def protoC6 : List ProtoField :=
  [.scalar "A" .fh (.plain (.int 0)),
   .scalar "B" .fh (.cond (.int 7) "A" (.int 1))]

/-! ### Basic mapping lemmas -/

theorem mapGet_mapSet_self (m : BVMap) (k : String) (v : BVVal) :
    mapGet (mapSet m k v) k = some v := by
  induction m with
  | nil => simp [mapSet, mapGet]
  | cons p rest ih =>
      obtain ⟨k', v'⟩ := p
      by_cases h : k' = k
      · simp [mapSet, h, mapGet]
      · simp [mapSet, h, mapGet, ih]

theorem mapGet_mapSet_ne (m : BVMap) (k k' : String) (v : BVVal)
    (h : k ≠ k') : mapGet (mapSet m k v) k' = mapGet m k' := by
  induction m with
  | nil => simp [mapSet, mapGet, h]
  | cons p rest ih =>
      obtain ⟨k₀, v₀⟩ := p
      by_cases h0 : k₀ = k
      · subst h0
        simp [mapSet, mapGet, h]
      · simp [mapSet, h0, mapGet, ih]

theorem mapSet_get_self (m : BVMap) (k : String) (v : BVVal)
    (h : mapGet m k = some v) : mapSet m k v = m := by
  induction m with
  | nil => simp [mapGet] at h
  | cons p rest ih =>
      obtain ⟨k₀, v₀⟩ := p
      by_cases h0 : k₀ = k
      · subst h0
        simp [mapGet] at h
        simp [mapSet, h]
      · simp [mapGet, h0] at h
        simp [mapSet, h0, ih h]

theorem hasKey_true_iff (m : BVMap) (k : String) :
    hasKey m k = true ↔ ∃ v, mapGet m k = some v := by
  simp [hasKey, Option.isSome_iff_exists]

theorem hasKey_false_iff (m : BVMap) (k : String) :
    hasKey m k = false ↔ mapGet m k = none := by
  unfold hasKey
  cases mapGet m k <;> simp

theorem mem_keysList_iff (m : BVMap) (k : String) :
    k ∈ keysList m ↔ hasKey m k = true := by
  induction m with
  | nil => simp [keysList, hasKey, mapGet]
  | cons p rest ih =>
      obtain ⟨k₀, v₀⟩ := p
      by_cases h0 : k₀ = k
      · subst h0
        simp [keysList, hasKey, mapGet]
      · unfold keysList hasKey at ih ⊢
        simp only [List.map_cons, List.mem_cons]
        rw [show mapGet ((k₀, v₀) :: rest) k = mapGet rest k by simp [mapGet, h0]]
        constructor
        · intro hmem
          rcases hmem with h1 | h1
          · exact absurd h1.symm h0
          · exact ih.mp h1
        · intro hs
          exact Or.inr (ih.mpr hs)

theorem keysList_mapSet (m : BVMap) (k : String) (v : BVVal)
    (h : hasKey m k = false) :
    keysList (mapSet m k v) = keysList m ++ [k] := by
  induction m with
  | nil => simp [mapSet, keysList]
  | cons p rest ih =>
      obtain ⟨k₀, v₀⟩ := p
      by_cases h0 : k₀ = k
      · subst h0
        simp [hasKey, mapGet] at h
      · rw [show hasKey ((k₀, v₀) :: rest) k = hasKey rest k by
          simp [hasKey, mapGet, h0]] at h
        simp [mapSet, h0, keysList] at ih ⊢
        exact ih h

theorem setIdx_self {α : Type} : ∀ (l : List α) (i : Nat) (a : α),
    l[i]? = some a → l.set i a = l := by
  intro l
  induction l with
  | nil => intro i a h; simp at h
  | cons x xs ih =>
      intro i a h
      cases i with
      | zero => simp at h; simp [List.set, h]
      | succ j => simp at h; simp [List.set, ih j a h]

theorem getIdx_of_drop_cons {α : Type} (l : List α) (i : Nat) (a : α)
    (t : List α) (h : l.drop i = a :: t) : l[i]? = some a := by
  have h0 : (l.drop i)[0]? = some a := by simp [h]
  have h1 : (l.drop i)[0]? = l[i + 0]? := List.getElem?_drop l i 0
  simpa using h1.symm.trans h0

theorem drop_succ_of_drop_cons {α : Type} (l : List α) (i : Nat) (a : α)
    (t : List α) (h : l.drop i = a :: t) : l.drop (i + 1) = t := by
  have h1 : (l.drop i).tail = l.drop (i + 1) := List.tail_drop l i
  rw [h] at h1
  simpa using h1.symm

/-! ### validBytes lemmas -/

theorem validBytes_take (s : Bytes) (n : Nat) (h : validBytes s) :
    validBytes (s.take n) := by
  intro b hb
  exact h b ((List.take_sublist n s).mem hb)

theorem validBytes_drop (s : Bytes) (n : Nat) (h : validBytes s) :
    validBytes (s.drop n) := by
  intro b hb
  exact h b ((List.drop_sublist n s).mem hb)

/-! ### Little-endian codec lemmas -/

theorem leBytes_length : ∀ (w x : Nat), (leBytes w x).length = w := by
  intro w
  induction w with
  | zero => intro x; simp [leBytes]
  | succ n ih => intro x; simp [leBytes, ih]

theorem leNat_leBytes : ∀ (w x : Nat), x < 2 ^ (8 * w) →
    leNat (leBytes w x) = x := by
  intro w
  induction w with
  | zero =>
      intro x hx
      have hx0 : x = 0 := by simpa using hx
      subst hx0
      rfl
  | succ n ih =>
      intro x hx
      have hdiv : x / 256 < 2 ^ (8 * n) := by
        have h8 : 2 ^ (8 * (n + 1)) = 2 ^ (8 * n) * 256 := by
          rw [Nat.mul_succ, pow_add]
          norm_num
        rw [h8] at hx
        exact Nat.div_lt_of_lt_mul (by linarith [hx])
      rw [leBytes, leNat, ih (x / 256) hdiv]
      omega

theorem leNat_lt : ∀ (l : Bytes), validBytes l → leNat l < 2 ^ (8 * l.length) := by
  intro l
  induction l with
  | nil => intro _; simp [leNat]
  | cons b rest ih =>
      intro hv
      have hb : b < 256 := hv b (by simp)
      have hr : leNat rest < 2 ^ (8 * rest.length) := by
        exact ih (fun x hx => hv x (by simp [hx]))
      have h8 : 2 ^ (8 * (b :: rest).length) = 2 ^ (8 * rest.length) * 256 := by
        rw [List.length_cons, Nat.mul_succ, pow_add]
        norm_num
      rw [h8]
      show b + 256 * leNat rest < 2 ^ (8 * rest.length) * 256
      nlinarith

theorem toSigned_bounds (w x : Nat) (hw : 1 ≤ w) (hx : x < 2 ^ (8 * w)) :
    -(2 ^ (8 * w - 1) : Int) ≤ toSigned w x ∧ toSigned w x < 2 ^ (8 * w - 1) := by
  have hsplit : 2 ^ (8 * w) = 2 ^ (8 * w - 1) * 2 := by
    rw [← pow_succ]
    congr 1
    omega
  unfold toSigned
  by_cases h : x < 2 ^ (8 * w - 1)
  · simp only [h, if_true]
    constructor
    · have : (0 : Int) ≤ x := Int.natCast_nonneg x
      have : (0 : Int) ≤ 2 ^ (8 * w - 1) := by positivity
      omega
    · exact_mod_cast h
  · simp only [h, if_false]
    push_neg at h
    have hx' : (x : Int) < 2 ^ (8 * w) := by exact_mod_cast hx
    have h' : (2 ^ (8 * w - 1) : Int) ≤ x := by exact_mod_cast h
    have hs : (2 ^ (8 * w) : Int) = 2 ^ (8 * w - 1) * 2 := by exact_mod_cast hsplit
    omega

theorem toSigned_mod (w x : Nat) (hx : x < 2 ^ (8 * w)) :
    ((toSigned w x) % ((2 : Int) ^ (8 * w))).toNat = x := by
  unfold toSigned
  have hx' : (x : Int) < 2 ^ (8 * w) := by exact_mod_cast hx
  have hx0 : (0 : Int) ≤ x := Int.natCast_nonneg x
  have hmod : ((x : Int)) % ((2 : Int) ^ (8 * w)) = x :=
    Int.emod_eq_of_lt hx0 hx'
  by_cases h : x < 2 ^ (8 * w - 1)
  · simp only [h, if_true, hmod, Int.toNat_natCast]
  · simp only [h, if_false]
    have hsub : ((x : Int) - 2 ^ (8 * w)) % ((2 : Int) ^ (8 * w)) =
        (x : Int) % ((2 : Int) ^ (8 * w)) := by
      rw [Int.sub_emod, Int.emod_self, sub_zero, Int.emod_emod_of_dvd _ dvd_rfl]
    rw [hsub, hmod, Int.toNat_natCast]

theorem packVal_length (fmt : Fmt) (v : BVVal) (out : Bytes)
    (h : packVal fmt v = some out) : out.length = fmtSize fmt := by
  cases fmt <;> cases v <;> simp [packVal, fmtSigned] at h <;>
    (rw [← h.2]; simp [leBytes_length, fmtSize])

theorem packVal_unpack_signed (w x : Nat) (hw : 1 ≤ w) (hx : x < 2 ^ (8 * w)) :
    (if -(2 ^ (8 * w - 1) : Int) ≤ toSigned w x ∧ toSigned w x < 2 ^ (8 * w - 1)
     then some (leBytes w ((toSigned w x % (2 ^ (8 * w) : Int)).toNat))
     else none) = some (leBytes w x) := by
  rw [if_pos (toSigned_bounds w x hw hx), toSigned_mod w x hx]

theorem packVal_unpack_unsigned (w x : Nat) (hx : x < 2 ^ (8 * w)) :
    (if (0 : Int) ≤ (x : Int) ∧ (x : Int) < 2 ^ (8 * w)
     then some (leBytes w ((x : Int).toNat))
     else none) = some (leBytes w x) := by
  rw [if_pos ⟨Int.natCast_nonneg x, by exact_mod_cast hx⟩]
  simp

theorem packVal_unpack (fmt : Fmt) (chunk : Bytes) (hfz : fmt ≠ .fz)
    (hlen : chunk.length = fmtSize fmt) (hv : validBytes chunk) :
    packVal fmt (unpackVal fmt chunk) = some (leBytes (fmtSize fmt) (leNat chunk)) ∧
    unpackVal fmt (leBytes (fmtSize fmt) (leNat chunk)) = unpackVal fmt chunk := by
  have hlt : leNat chunk < 2 ^ (8 * fmtSize fmt) := by
    have := leNat_lt chunk hv
    rwa [hlen] at this
  have hle : leNat (leBytes (fmtSize fmt) (leNat chunk)) = leNat chunk :=
    leNat_leBytes (fmtSize fmt) (leNat chunk) hlt
  cases fmt
  case fz => exact absurd rfl hfz
  case ff =>
      refine ⟨?_, by simp [unpackVal, hle]⟩
      have hlt4 : leNat chunk < 4294967296 := by
        simpa [fmtSize] using hlt
      simp [unpackVal, packVal, fmtSize, hlt4]
  case fb =>
      refine ⟨?_, by simp [unpackVal, fmtSigned, hle]⟩
      simp only [unpackVal, packVal, fmtSigned, if_true]
      exact packVal_unpack_signed (fmtSize .fb) (leNat chunk) (by decide) hlt
  case fh =>
      refine ⟨?_, by simp [unpackVal, fmtSigned, hle]⟩
      simp only [unpackVal, packVal, fmtSigned, if_true]
      exact packVal_unpack_signed (fmtSize .fh) (leNat chunk) (by decide) hlt
  case fi =>
      refine ⟨?_, by simp [unpackVal, fmtSigned, hle]⟩
      simp only [unpackVal, packVal, fmtSigned, if_true]
      exact packVal_unpack_signed (fmtSize .fi) (leNat chunk) (by decide) hlt
  case fB =>
      refine ⟨?_, by simp [unpackVal, fmtSigned, hle]⟩
      simp only [unpackVal, packVal, fmtSigned, Bool.false_eq_true, if_false]
      exact packVal_unpack_unsigned (fmtSize .fB) (leNat chunk) hlt
  case fI =>
      refine ⟨?_, by simp [unpackVal, fmtSigned, hle]⟩
      simp only [unpackVal, packVal, fmtSigned, Bool.false_eq_true, if_false]
      exact packVal_unpack_unsigned (fmtSize .fI) (leNat chunk) hlt

/-! ### String scanner lemmas -/

theorem splitOnZero_head : ∀ (l : Bytes), ∃ t,
    splitOnZero l = (l.takeWhile (fun b => b != 0)) :: t := by
  intro l
  induction l with
  | nil => exact ⟨[], by simp [splitOnZero, List.takeWhile]⟩
  | cons b rest ih =>
      obtain ⟨t, ht⟩ := ih
      by_cases hb : b = 0
      · subst hb
        exact ⟨splitOnZero rest, by simp [splitOnZero, List.takeWhile]⟩
      · refine ⟨t, ?_⟩
        simp only [splitOnZero, hb, if_false, ht, List.takeWhile]
        have : (b != 0) = true := by simpa using hb
        simp [this]

theorem readCString_one (s : Bytes) :
    readCString s 1 1000 true false =
      some ([(s.take 1000).takeWhile (fun b => b != 0)],
            ((s.take 1000).takeWhile (fun b => b != 0)).length + 1) := by
  obtain ⟨t, ht⟩ := splitOnZero_head (s.take 1000)
  simp [readCString, ht]

theorem takeWhile_take_append (n : Nat) (line u : Bytes)
    (hz : ∀ b ∈ line, (b != 0) = true) (hlen : line.length ≤ n) :
    ((line ++ 0 :: u).take n).takeWhile (fun b => b != 0) = line := by
  induction line generalizing n with
  | nil =>
      cases n with
      | zero => simp [List.takeWhile]
      | succ m => simp [List.takeWhile]
  | cons b bs ih =>
      cases n with
      | zero => simp at hlen
      | succ m =>
          have hb : (b != 0) = true := hz b (by simp)
          have hbs : ∀ x ∈ bs, (x != 0) = true := fun x hx => hz x (by simp [hx])
          have hlen' : bs.length ≤ m := by simpa using hlen
          simp only [List.cons_append, List.take_succ_cons, List.takeWhile, hb]
          simp [ih m hbs hlen']

theorem drop_append_zero (line u : Bytes) :
    (line ++ 0 :: u).drop (line.length + 1) = u := by
  have h : line ++ 0 :: u = (line ++ [0]) ++ u := by simp
  have h2 : (line ++ [0]).length = line.length + 1 := by simp
  rw [h, ← h2, List.drop_left]

theorem mem_takeWhile_not_zero : ∀ (l : Bytes) (b : Nat),
    b ∈ l.takeWhile (fun x => x != 0) → (b != 0) = true := by
  intro l
  induction l with
  | nil => intro b h; simp [List.takeWhile] at h
  | cons x xs ih =>
      intro b h
      simp only [List.takeWhile] at h
      by_cases hx : (x != 0) = true
      · rw [hx] at h
        simp only [List.mem_cons] at h
        rcases h with h | h
        · subst h; exact hx
        · exact ih b h
      · simp only [Bool.not_eq_true] at hx
        rw [hx] at h
        simp at h

theorem length_takeWhile_take (l : Bytes) (n : Nat) :
    ((l.take n).takeWhile (fun x => x != 0)).length ≤ n := by
  calc ((l.take n).takeWhile (fun x => x != 0)).length
      ≤ (l.take n).length := (List.takeWhile_sublist _).length_le
    _ ≤ n := by simp

/-! ### Decoder structure lemmas: the decoder only writes its own field
names into the mapping, and only consumes a prefix of the stream. -/

theorem parseLoop_drop (step : Bytes → Option (BVMap × Bytes))
    (hstep : ∀ st m r, step st = some (m, r) → ∃ j, r = st.drop j) :
    ∀ (k : Nat) (s : Bytes) (els : List BVMap) (s' : Bytes),
      parseLoop step k s = some (els, s') → ∃ j, s' = s.drop j := by
  intro k
  induction k with
  | zero =>
      intro s els s' h
      simp only [parseLoop, Option.some_inj, Prod.mk.injEq] at h
      exact ⟨0, by rw [← h.2]; simp⟩
  | succ n ih =>
      intro s els s' h
      rw [parseLoop] at h
      split at h
      · exact Option.noConfusion h
      · rename_i m s₁ hm
        split at h
        · exact Option.noConfusion h
        · rename_i ms s₂ hms
          simp only [Option.some_inj, Prod.mk.injEq] at h
          obtain ⟨j₀, hj₀⟩ := hstep s m s₁ hm
          obtain ⟨j₁, hj₁⟩ := ih s₁ ms s₂ hms
          refine ⟨j₀ + j₁, ?_⟩
          rw [← h.2, hj₁, hj₀, List.drop_drop, Nat.add_comm]

theorem parseGo_frame (rec : List ProtoField → Bytes → Option BVMap → BVMap →
    Option (BVMap × Bytes))
    (hrec : ∀ sub st pr a m r, rec sub st pr a = some (m, r) →
      ∃ j, r = st.drop j) :
    ∀ (proto : List ProtoField) (s : Bytes) (par : Option BVMap) (acc m : BVMap)
      (rest : Bytes), parseGo rec proto s par acc = some (m, rest) →
      (∀ k, k ∉ protoNames proto → mapGet m k = mapGet acc k) ∧
      ∃ j, rest = s.drop j := by
  intro proto
  induction proto with
  | nil =>
      intro s par acc m rest h
      simp only [parseGo, Option.some_inj, Prod.mk.injEq] at h
      refine ⟨fun k _ => by rw [← h.1], ⟨0, by rw [← h.2]; simp⟩⟩
  | cons f fs ih =>
      intro s par acc m rest h
      have hfin : ∀ (acc' : BVMap) (s' : Bytes),
          parseGo rec fs s' par acc' = some (m, rest) →
          (∃ v, acc' = mapSet acc (f.fname) v) → (∃ j, s' = s.drop j) →
          (∀ k, k ∉ protoNames (f :: fs) →
            mapGet m k = mapGet acc k) ∧ ∃ j, rest = s.drop j := by
        intro acc' s' h' hv hdrop
        obtain ⟨hkeys, j, hj⟩ := ih _ _ _ _ _ h'
        obtain ⟨j₀, hj₀⟩ := hdrop
        refine ⟨?_, ⟨j₀ + j, by rw [hj, hj₀, List.drop_drop, Nat.add_comm]⟩⟩
        intro k hk
        simp only [protoNames, List.map_cons, List.mem_cons] at hk
        push_neg at hk
        obtain ⟨v, hv⟩ := hv
        rw [hkeys k (by simp only [protoNames]; exact hk.2), hv,
          mapGet_mapSet_ne _ _ _ _ (fun hnk => hk.1 (by rw [hnk]))]
      cases f with
      | scalar n fmt spec =>
          simp only [parseGo] at h
          split at h
          · simp only [readCString_one, List.head?_cons] at h
            exact hfin _ _ h ⟨_, rfl⟩ ⟨_, rfl⟩
          · split at h
            · split at h
              · exact Option.noConfusion h
              · split at h
                · split at h
                  · exact Option.noConfusion h
                  · exact hfin _ _ h ⟨_, rfl⟩ ⟨fmtSize fmt, rfl⟩
                · exact hfin _ _ h ⟨_, rfl⟩ ⟨0, by simp⟩
            · split at h
              · exact Option.noConfusion h
              · exact hfin _ _ h ⟨_, rfl⟩ ⟨fmtSize fmt, rfl⟩
      | group n sub c =>
          simp only [parseGo] at h
          split at h
          · exact Option.noConfusion h
          · rename_i cv hcv
            split at h
            · exact Option.noConfusion h
            · rename_i kk hkk
              split at h
              · exact Option.noConfusion h
              · rename_i els s' hloop
                obtain ⟨j₀, hj₀⟩ :=
                  parseLoop_drop _
                    (fun st m r hb => hrec sub st (some acc) [] m r hb)
                    _ _ _ _ hloop
                exact hfin _ _ h ⟨_, rfl⟩ ⟨j₀, hj₀⟩

theorem parseD_frame : ∀ (d : Nat) (proto : List ProtoField) (s : Bytes)
    (par : Option BVMap) (acc m : BVMap) (rest : Bytes),
    parseD d proto s par acc = some (m, rest) →
    (∀ k, k ∉ protoNames proto → mapGet m k = mapGet acc k) ∧
    ∃ j, rest = s.drop j := by
  intro d
  induction d with
  | zero =>
      intro proto s par acc m rest h
      exact parseGo_frame _ (fun sub st pr a m' r hb => by simp at hb) proto
        s par acc m rest h
  | succ d ih =>
      intro proto s par acc m rest h
      exact parseGo_frame _
        (fun sub st pr a m' r hb => (ih sub st pr a m' r hb).2) proto
        s par acc m rest h

theorem parseD_keys (d : Nat) (proto : List ProtoField) (s : Bytes)
    (par : Option BVMap) (acc m : BVMap) (rest : Bytes)
    (h : parseD d proto s par acc = some (m, rest)) :
    ∀ k, k ∉ protoNames proto → mapGet m k = mapGet acc k :=
  (parseD_frame d proto s par acc m rest h).1

theorem parseD_drop (d : Nat) (proto : List ProtoField) (s : Bytes)
    (par : Option BVMap) (acc m : BVMap) (rest : Bytes)
    (h : parseD d proto s par acc = some (m, rest)) :
    ∃ j, rest = s.drop j :=
  (parseD_frame d proto s par acc m rest h).2

/-! ### Well-formedness lemmas -/

theorem wf_scalar_parts (K : List String) (n : String) (fmt : Fmt)
    (spec : ScalarSpec) (rest : List ProtoField)
    (h : wfFields K (.scalar n fmt spec :: rest) = true) :
    n ∉ K ∧ n ∉ protoNames rest ∧ wfFields (K ++ [n]) rest = true := by
  simp only [wfFields, Bool.and_eq_true, Bool.not_eq_true'] at h
  exact ⟨by simpa using h.1.1, by simpa using h.1.2, h.2⟩

theorem wf_group_parts (K : List String) (n : String) (sub : List ProtoField)
    (c : String) (rest : List ProtoField)
    (h : wfFields K (.group n sub c :: rest) = true) :
    n ∉ K ∧ n ∉ protoNames rest ∧ c ≠ n ∧ c ∉ protoNames rest ∧
    wfFields [] sub = true ∧ wfFields (K ++ [n]) rest = true := by
  simp only [wfFields, Bool.and_eq_true, Bool.not_eq_true'] at h
  refine ⟨by simpa using h.1.1.1.1.1, by simpa using h.1.1.1.1.2,
    by simpa using h.1.1.1.2, by simpa using h.1.1.2, h.1.2, h.2⟩

theorem wf_mem_not_name : ∀ (proto : List ProtoField) (K : List String),
    wfFields K proto = true → ∀ x ∈ K, x ∉ protoNames proto := by
  intro proto
  induction proto with
  | nil => intro K _ x _; simp [protoNames]
  | cons f fs ih =>
      intro K hwf x hx
      cases f with
      | scalar n fmt spec =>
          obtain ⟨hnK, _, hrest⟩ := wf_scalar_parts K n fmt spec fs hwf
          have hxr : x ∉ protoNames fs := ih (K ++ [n]) hrest x (by simp [hx])
          simp only [protoNames, List.map_cons, List.mem_cons, ProtoField.fname]
          intro hmem
          rcases hmem with h1 | h1
          · exact hnK (h1 ▸ hx)
          · exact hxr (by simpa [protoNames] using h1)
      | group n sub c =>
          obtain ⟨hnK, _, _, _, _, hrest⟩ := wf_group_parts K n sub c fs hwf
          have hxr : x ∉ protoNames fs := ih (K ++ [n]) hrest x (by simp [hx])
          simp only [protoNames, List.map_cons, List.mem_cons, ProtoField.fname]
          intro hmem
          rcases hmem with h1 | h1
          · exact hnK (h1 ▸ hx)
          · exact hxr (by simpa [protoNames] using h1)

/-! ### Encoder and size-calculator state preservation: the threaded
header dict and parent dict come back unchanged (the source only reads
them). -/

theorem packLoop_state (step : BVMap → BVMap → Option (Bytes × BVMap × Option BVMap))
    (hstep : ∀ e cur r, step e cur = some r → r.2.1 = e ∧ r.2.2 = some cur)
    (name : String) : ∀ (k i : Nat) (v : BVVal) (h : BVMap) (bs : Bytes)
    (hf : BVMap), mapGet h name = some v →
    packLoop step name v i k h = some (bs, hf) → hf = h := by
  intro k
  induction k with
  | zero =>
      intro i v h bs hf _ hp
      simp only [packLoop, Option.some_inj, Prod.mk.injEq] at hp
      exact hp.2.symm
  | succ kk ih =>
      intro i v h bs hf hv hp
      rw [packLoop] at hp
      split at hp
      next => exact Option.noConfusion hp
      next els hels =>
        split at hp
        next => exact Option.noConfusion hp
        next e he =>
          split at hp
          next => exact Option.noConfusion hp
          next b e2 p2 hstepEq =>
            split at hp
            next => exact Option.noConfusion hp
            next h2 =>
              split at hp
              next => exact Option.noConfusion hp
              next bs₁ hf₁ hloop =>
                obtain ⟨heq1, heq2⟩ := hstep e h _ hstepEq
                simp only at heq1 heq2
                have hh : h2 = h := Option.some_inj.mp heq2
                rw [heq1, hh] at hloop
                have hsetEq : els.set i e = els := setIdx_self els i e he
                have hveq : v = .grp els := by
                  cases v <;> simp [asGrpVal] at hels
                  rw [hels]
                have hms : mapSet h name (.grp (els.set i e)) = h := by
                  rw [hsetEq, ← hveq]
                  exact mapSet_get_self h name v hv
                rw [hms] at hloop
                have hvnext : mapGet h name = some (.grp (els.set i e)) := by
                  rw [hsetEq, ← hveq]
                  exact hv
                have := ih (i + 1) (.grp (els.set i e)) h bs₁ hf₁ hvnext hloop
                simp only [Option.some_inj, Prod.mk.injEq] at hp
                rw [← hp.2, this]

theorem packGo_state (rec : List ProtoField → BVMap → Option BVMap →
    Option (Bytes × BVMap × Option BVMap))
    (hrec : ∀ sub e pr r, rec sub e pr = some r → r.2.1 = e ∧ r.2.2 = pr) :
    ∀ (proto : List ProtoField) (h : BVMap) (p : Option BVMap)
      (r : Bytes × BVMap × Option BVMap), packGo rec proto h p = some r →
      r.2.1 = h ∧ r.2.2 = p := by
  intro proto
  induction proto with
  | nil =>
      intro h p r hp
      simp only [packGo, Option.some_inj] at hp
      rw [← hp]
      exact ⟨rfl, rfl⟩
  | cons f fs ih =>
      intro h p r hp
      cases f with
      | scalar n fmt spec =>
          simp only [packGo] at hp
          split at hp
          next => exact Option.noConfusion hp
          next v hv =>
            split at hp
            · split at hp
              next sv hsv =>
                split at hp
                next => exact Option.noConfusion hp
                next bs h' p' hrest =>
                  have := ih h p _ hrest
                  simp only [Option.some_inj] at hp
                  rw [← hp]
                  exact this
              next => exact Option.noConfusion hp
            · split at hp
              next dflt c cv hspec =>
                split at hp
                next => exact Option.noConfusion hp
                next g hg =>
                  split at hp
                  · split at hp
                    next => exact Option.noConfusion hp
                    next b hb =>
                      split at hp
                      next => exact Option.noConfusion hp
                      next bs h' p' hrest =>
                        have := ih h p _ hrest
                        simp only [Option.some_inj] at hp
                        rw [← hp]
                        exact this
                  · exact ih h p r hp
              next dflt hspec =>
                split at hp
                next => exact Option.noConfusion hp
                next b hb =>
                  split at hp
                  next => exact Option.noConfusion hp
                  next bs h' p' hrest =>
                    have := ih h p _ hrest
                    simp only [Option.some_inj] at hp
                    rw [← hp]
                    exact this
      | group n sub c =>
          simp only [packGo] at hp
          split at hp
          next => exact Option.noConfusion hp
          next v hv =>
            split at hp
            next => exact Option.noConfusion hp
            next cv hcv =>
              split at hp
              next => exact Option.noConfusion hp
              next kk hkk =>
                split at hp
                next => exact Option.noConfusion hp
                next b h1 hloop =>
                  split at hp
                  next => exact Option.noConfusion hp
                  next bs h' p' hrest =>
                    have hstate : h1 = h := by
                      refine packLoop_state _ ?_ n _ 0 v h b h1 hv hloop
                      intro e cur rr hre
                      exact hrec sub e (some cur) rr hre
                    subst hstate
                    have := ih h1 p _ hrest
                    simp only [Option.some_inj] at hp
                    rw [← hp]
                    exact this

theorem packD_state : ∀ (d : Nat) (proto : List ProtoField) (h : BVMap)
    (p : Option BVMap) (r : Bytes × BVMap × Option BVMap),
    packD d proto h p = some r → r.2.1 = h ∧ r.2.2 = p := by
  intro d
  induction d with
  | zero =>
      intro proto h p r hp
      exact packGo_state _ (fun sub e pr rr hre => by simp at hre) proto h p r hp
  | succ dd ih =>
      intro proto h p r hp
      exact packGo_state _ (fun sub e pr rr hre => ih sub e pr rr hre)
        proto h p r hp

theorem calcLoop_state (step : BVMap → BVMap → Option (Nat × BVMap × Option BVMap))
    (hstep : ∀ e cur r, step e cur = some r → r.2.1 = e ∧ r.2.2 = some cur)
    (name : String) : ∀ (k i : Nat) (v : BVVal) (h : BVMap) (sz : Nat)
    (hf : BVMap), mapGet h name = some v →
    calcLoop step name v i k h = some (sz, hf) → hf = h := by
  intro k
  induction k with
  | zero =>
      intro i v h sz hf _ hp
      simp only [calcLoop, Option.some_inj, Prod.mk.injEq] at hp
      exact hp.2.symm
  | succ kk ih =>
      intro i v h sz hf hv hp
      rw [calcLoop] at hp
      split at hp
      next => exact Option.noConfusion hp
      next els hels =>
        split at hp
        next => exact Option.noConfusion hp
        next e he =>
          split at hp
          next => exact Option.noConfusion hp
          next b e2 p2 hstepEq =>
            split at hp
            next => exact Option.noConfusion hp
            next h2 =>
              split at hp
              next => exact Option.noConfusion hp
              next sz₁ hf₁ hloop =>
                obtain ⟨heq1, heq2⟩ := hstep e h _ hstepEq
                simp only at heq1 heq2
                have hh : h2 = h := Option.some_inj.mp heq2
                rw [heq1, hh] at hloop
                have hsetEq : els.set i e = els := setIdx_self els i e he
                have hveq : v = .grp els := by
                  cases v <;> simp [asGrpVal] at hels
                  rw [hels]
                have hms : mapSet h name (.grp (els.set i e)) = h := by
                  rw [hsetEq, ← hveq]
                  exact mapSet_get_self h name v hv
                rw [hms] at hloop
                have hvnext : mapGet h name = some (.grp (els.set i e)) := by
                  rw [hsetEq, ← hveq]
                  exact hv
                have := ih (i + 1) (.grp (els.set i e)) h sz₁ hf₁ hvnext hloop
                simp only [Option.some_inj, Prod.mk.injEq] at hp
                rw [← hp.2, this]

theorem calcGo_state (rec : List ProtoField → BVMap → Option BVMap →
    Option (Nat × BVMap × Option BVMap))
    (hrec : ∀ sub e pr r, rec sub e pr = some r → r.2.1 = e ∧ r.2.2 = pr) :
    ∀ (proto : List ProtoField) (h : BVMap) (p : Option BVMap)
      (r : Nat × BVMap × Option BVMap), calcGo rec proto h p = some r →
      r.2.1 = h ∧ r.2.2 = p := by
  intro proto
  induction proto with
  | nil =>
      intro h p r hp
      simp only [calcGo, Option.some_inj] at hp
      rw [← hp]
      exact ⟨rfl, rfl⟩
  | cons f fs ih =>
      intro h p r hp
      cases f with
      | scalar n fmt spec =>
          simp only [calcGo] at hp
          split at hp
          next => exact Option.noConfusion hp
          next v hv =>
            split at hp
            · split at hp
              next => exact Option.noConfusion hp
              next l hl =>
                split at hp
                next => exact Option.noConfusion hp
                next sz h' p' hrest =>
                  have := ih h p _ hrest
                  simp only [Option.some_inj] at hp
                  rw [← hp]
                  exact this
            · split at hp
              next dflt c cv hspec =>
                split at hp
                next => exact Option.noConfusion hp
                next g hg =>
                  split at hp
                  · split at hp
                    next => exact Option.noConfusion hp
                    next sz h' p' hrest =>
                      have := ih h p _ hrest
                      simp only [Option.some_inj] at hp
                      rw [← hp]
                      exact this
                  · exact ih h p r hp
              next dflt hspec =>
                split at hp
                next => exact Option.noConfusion hp
                next sz h' p' hrest =>
                  have := ih h p _ hrest
                  simp only [Option.some_inj] at hp
                  rw [← hp]
                  exact this
      | group n sub c =>
          simp only [calcGo] at hp
          split at hp
          next => exact Option.noConfusion hp
          next v hv =>
            split at hp
            next => exact Option.noConfusion hp
            next cv hcv =>
              split at hp
              next => exact Option.noConfusion hp
              next kk hkk =>
                split at hp
                next => exact Option.noConfusion hp
                next b h1 hloop =>
                  split at hp
                  next => exact Option.noConfusion hp
                  next sz h' p' hrest =>
                    have hstate : h1 = h := by
                      refine calcLoop_state _ ?_ n _ 0 v h b h1 hv hloop
                      intro e cur rr hre
                      exact hrec sub e (some cur) rr hre
                    subst hstate
                    have := ih h1 p _ hrest
                    simp only [Option.some_inj] at hp
                    rw [← hp]
                    exact this

theorem calcD_state : ∀ (d : Nat) (proto : List ProtoField) (h : BVMap)
    (p : Option BVMap) (r : Nat × BVMap × Option BVMap),
    calcD d proto h p = some r → r.2.1 = h ∧ r.2.2 = p := by
  intro d
  induction d with
  | zero =>
      intro proto h p r hp
      exact calcGo_state _ (fun sub e pr rr hre => by simp at hre) proto h p r hp
  | succ dd ih =>
      intro proto h p r hp
      exact calcGo_state _ (fun sub e pr rr hre => ih sub e pr rr hre)
        proto h p r hp

/-! ### The size calculator computes exactly the encoded length -/

theorem calcLoop_of_packLoop (step : BVMap → BVMap → Option (Bytes × BVMap × Option BVMap))
    (stepC : BVMap → BVMap → Option (Nat × BVMap × Option BVMap))
    (name : String)
    (hstep : ∀ e cur bs e' p', step e cur = some (bs, e', p') →
      stepC e cur = some (bs.length, e', p')) :
    ∀ (k i : Nat) (v : BVVal) (h : BVMap) (bs : Bytes) (hf : BVMap),
      packLoop step name v i k h = some (bs, hf) →
      calcLoop stepC name v i k h = some (bs.length, hf) := by
  intro k
  induction k with
  | zero =>
      intro i v h bs hf hp
      simp only [packLoop, Option.some_inj, Prod.mk.injEq] at hp
      simp only [calcLoop, ← hp.1, ← hp.2, List.length_nil]
  | succ kk ih =>
      intro i v h bs hf hp
      rw [packLoop] at hp
      split at hp
      next => exact Option.noConfusion hp
      next els hels =>
        split at hp
        next => exact Option.noConfusion hp
        next e he =>
          split at hp
          next => exact Option.noConfusion hp
          next b e2 p2 hstepEq =>
            split at hp
            next => exact Option.noConfusion hp
            next h2 =>
              split at hp
              next => exact Option.noConfusion hp
              next bs₁ hf₁ hloop =>
                have hstepc := hstep e h b e2 (some h2) hstepEq
                have hih := ih (i + 1) (.grp (els.set i e2))
                  (mapSet h2 name (.grp (els.set i e2))) bs₁ hf₁ hloop
                rw [calcLoop]
                simp only [hels, he, hstepc, hih]
                simp only [Option.some_inj, Prod.mk.injEq] at hp
                rw [← hp.1, ← hp.2]
                simp [List.length_append]

theorem calcGo_of_packGo (recK : List ProtoField → BVMap → Option BVMap →
    Option (Bytes × BVMap × Option BVMap))
    (recC : List ProtoField → BVMap → Option BVMap →
      Option (Nat × BVMap × Option BVMap))
    (hrec : ∀ sub e pr bs e' p', recK sub e pr = some (bs, e', p') →
      recC sub e pr = some (bs.length, e', p')) :
    ∀ (proto : List ProtoField) (h : BVMap) (p : Option BVMap) (bs : Bytes)
      (h' : BVMap) (p' : Option BVMap),
      packGo recK proto h p = some (bs, h', p') →
      calcGo recC proto h p = some (bs.length, h', p') := by
  intro proto
  induction proto with
  | nil =>
      intro h p bs h' p' hp
      simp only [packGo, Option.some_inj, Prod.mk.injEq] at hp
      simp only [calcGo, ← hp.1, ← hp.2.1, ← hp.2.2, List.length_nil]
  | cons f fs ih =>
      intro h p bs h' p' hp
      cases f with
      | scalar n fmt spec =>
          simp only [packGo] at hp
          split at hp
          next => exact Option.noConfusion hp
          next v hv =>
            split at hp
            next hfz =>
              split at hp
              next sv hsv =>
                split at hp
                next => exact Option.noConfusion hp
                next bs₁ h₁ p₁ hrest =>
                  have hih := ih h p bs₁ h₁ p₁ hrest
                  simp only [calcGo]
                  simp only [hv, if_pos hfz, pyLen, hih]
                  simp only [Option.some_inj, Prod.mk.injEq] at hp
                  rw [← hp.1, ← hp.2.1, ← hp.2.2]
                  simp only [List.length_append, List.length_cons,
                    List.length_nil, Prod.mk.injEq, and_true]
                  try omega
              next => exact Option.noConfusion hp
            next hfz =>
              split at hp
              next dflt c cv hspec =>
                split at hp
                next => exact Option.noConfusion hp
                next g hg =>
                  split at hp
                  next ht =>
                    split at hp
                    next => exact Option.noConfusion hp
                    next b hb =>
                      split at hp
                      next => exact Option.noConfusion hp
                      next bs₁ h₁ p₁ hrest =>
                        have hih := ih h p bs₁ h₁ p₁ hrest
                        simp only [calcGo]
                        simp only [hv, if_neg hfz, hg, if_pos ht, hih]
                        simp only [Option.some_inj, Prod.mk.injEq] at hp
                        rw [← hp.1, ← hp.2.1, ← hp.2.2]
                        simp [List.length_append, packVal_length fmt v b hb]
                  next ht =>
                    have hih := ih h p bs h' p' hp
                    simp only [calcGo]
                    simp only [hv, if_neg hfz, hg, if_neg ht, hih]
              next dflt hspec =>
                split at hp
                next => exact Option.noConfusion hp
                next b hb =>
                  split at hp
                  next => exact Option.noConfusion hp
                  next bs₁ h₁ p₁ hrest =>
                    have hih := ih h p bs₁ h₁ p₁ hrest
                    simp only [calcGo]
                    simp only [hv, if_neg hfz, hih]
                    simp only [Option.some_inj, Prod.mk.injEq] at hp
                    rw [← hp.1, ← hp.2.1, ← hp.2.2]
                    simp [List.length_append, packVal_length fmt v b hb]
      | group n sub c =>
          simp only [packGo] at hp
          split at hp
          next => exact Option.noConfusion hp
          next v hv =>
            split at hp
            next => exact Option.noConfusion hp
            next cv hcv =>
              split at hp
              next => exact Option.noConfusion hp
              next kk hkk =>
                split at hp
                next => exact Option.noConfusion hp
                next b h1 hloop =>
                  split at hp
                  next => exact Option.noConfusion hp
                  next bs₁ h₁ p₁ hrest =>
                    have hloopc := calcLoop_of_packLoop
                      (fun e cur => recK sub e (some cur))
                      (fun e cur => recC sub e (some cur)) n
                      (fun e cur bs2 e' p'2 hre => hrec sub e (some cur) bs2 e' p'2 hre)
                      kk.toNat 0 v h b h1 hloop
                    have hih := ih h1 p bs₁ h₁ p₁ hrest
                    simp only [calcGo]
                    simp only [hv, hcv, hkk, hloopc, hih]
                    simp only [Option.some_inj, Prod.mk.injEq] at hp
                    rw [← hp.1, ← hp.2.1, ← hp.2.2]
                    simp [List.length_append]

theorem hasKey_false_of_not_mem (m : BVMap) (k : String)
    (h : k ∉ keysList m) : hasKey m k = false := by
  cases hb : hasKey m k
  · rfl
  · exact absurd ((mem_keysList_iff m k).mpr hb) h

theorem mapGet_some_mem (m : BVMap) (k : String) (v : BVVal)
    (h : mapGet m k = some v) : k ∈ keysList m :=
  (mem_keysList_iff m k).mpr ((hasKey_true_iff m k).mpr ⟨v, h⟩)

theorem calcD_of_packD : ∀ (d : Nat) (proto : List ProtoField) (h : BVMap)
    (p : Option BVMap) (bs : Bytes) (h' : BVMap) (p' : Option BVMap),
    packD d proto h p = some (bs, h', p') →
    calcD d proto h p = some (bs.length, h', p') := by
  intro d
  induction d with
  | zero =>
      intro proto h p bs h' p' hp
      exact calcGo_of_packGo _ _ (fun sub e pr bs2 e' p'2 hre => by simp at hre)
        proto h p bs h' p' hp
  | succ dd ih =>
      intro proto h p bs h' p' hp
      exact calcGo_of_packGo _ _ (fun sub e pr bs2 e' p'2 hre => ih sub e pr bs2 e' p'2 hre)
        proto h p bs h' p' hp

/-! ### The decode-encode-decode round trip -/

theorem roundLoop (step : Bytes → Option (BVMap × Bytes))
    (stepK : BVMap → BVMap → Option (Bytes × BVMap × Option BVMap))
    (n : String) (m : BVMap) (els : List BVMap)
    (hget : mapGet m n = some (.grp els))
    (hstepDrop : ∀ st e r, step st = some (e, r) → ∃ j, r = st.drop j)
    (hElem : ∀ st e s₁, validBytes st → step st = some (e, s₁) →
      ∃ bsE, stepK e m = some (bsE, e, some m) ∧
        ∀ t, step (bsE ++ t) = some (e, t)) :
    ∀ (k i : Nat) (s : Bytes) (tail : List BVMap) (s' : Bytes),
      validBytes s →
      els.drop i = tail →
      parseLoop step k s = some (tail, s') →
      ∃ bs, packLoop stepK n (.grp els) i k m = some (bs, m) ∧
        ∀ t, parseLoop step k (bs ++ t) = some (tail, t) := by
  intro k
  induction k with
  | zero =>
      intro i s tail s' _ htail hp
      simp only [parseLoop, Option.some_inj, Prod.mk.injEq] at hp
      refine ⟨[], by simp only [packLoop], ?_⟩
      intro t
      simp only [parseLoop, List.nil_append, ← hp.1]
  | succ kk ih =>
      intro i s tail s' hv htail hp
      rw [parseLoop] at hp
      split at hp
      next => exact Option.noConfusion hp
      next e s₁ hse =>
        split at hp
        next => exact Option.noConfusion hp
        next L2 s₂ hsL =>
          simp only [Option.some_inj, Prod.mk.injEq] at hp
          have hidx : els[i]? = some e := getIdx_of_drop_cons els i e L2
            (by rw [htail, hp.1])
          have hdrop1 : els.drop (i + 1) = L2 := drop_succ_of_drop_cons els i e L2
            (by rw [htail, hp.1])
          have hv₁ : validBytes s₁ := by
            obtain ⟨j, hj⟩ := hstepDrop s e s₁ hse
            rw [hj]
            exact validBytes_drop s j hv
          obtain ⟨bsE, hpackE, hreE⟩ := hElem s e s₁ hv hse
          obtain ⟨bsT, hpackT, hreT⟩ := ih (i + 1) s₁ L2 s₂ hv₁ hdrop1 hsL
          have hset : els.set i e = els := setIdx_self els i e hidx
          have hmset : mapSet m n (.grp els) = m := mapSet_get_self m n _ hget
          refine ⟨bsE ++ bsT, ?_, ?_⟩
          · rw [packLoop]
            simp only [asGrpVal, hidx, hpackE, hset, hmset, hpackT]
          · intro t
            rw [parseLoop]
            have hassoc : (bsE ++ bsT) ++ t = bsE ++ (bsT ++ t) := by
              simp [List.append_assoc]
            simp only [hassoc, hreE, hreT, ← hp.1]

theorem roundGo (recP : List ProtoField → Bytes → Option BVMap → BVMap →
    Option (BVMap × Bytes))
    (recK : List ProtoField → BVMap → Option BVMap →
      Option (Bytes × BVMap × Option BVMap))
    (hrecDrop : ∀ sub st pr a m r, recP sub st pr a = some (m, r) →
      ∃ j, r = st.drop j)
    (hrecRound : ∀ sub st pr m r Q, wfFields [] sub = true → validBytes st →
      parentLe pr Q → recP sub st pr [] = some (m, r) →
      ∃ bs, recK sub m Q = some (bs, m, Q) ∧
        ∀ t, recP sub (bs ++ t) pr [] = some (m, t)) :
    ∀ (proto : List ProtoField) (s : Bytes) (par : Option BVMap) (acc m : BVMap)
      (rest : Bytes) (Q : Option BVMap),
      wfFields (keysList acc) proto = true →
      validBytes s →
      parentLe par Q →
      parseGo recP proto s par acc = some (m, rest) →
      ∃ bs, packGo recK proto m Q = some (bs, m, Q) ∧
        ∀ t, parseGo recP proto (bs ++ t) par acc = some (m, t) := by
  intro proto
  induction proto with
  | nil =>
      intro s par acc m rest Q _ _ _ h
      simp only [parseGo, Option.some_inj, Prod.mk.injEq] at h
      refine ⟨[], by simp only [packGo, ← h.1], ?_⟩
      intro t
      simp only [parseGo, List.nil_append, ← h.1]
  | cons f fs ih =>
      intro s par acc m rest Q hwf hv hple h
      cases f with
      | scalar n fmt spec =>
          obtain ⟨hnK, hnRest, hwfRest⟩ :=
            wf_scalar_parts (keysList acc) n fmt spec fs hwf
          have hkacc : hasKey acc n = false := hasKey_false_of_not_mem acc n hnK
          simp only [parseGo] at h
          split at h
          next hfz =>
            subst hfz
            simp only [readCString_one, List.head?_cons] at h
            set z := (s.take 1000).takeWhile (fun b => b != 0) with hz
            have hwfAcc' : wfFields (keysList (mapSet acc n (.str z))) fs = true := by
              rw [keysList_mapSet acc n _ hkacc]
              exact hwfRest
            obtain ⟨bsR, hpackR, hreR⟩ := ih (s.drop (z.length + 1)) par
              (mapSet acc n (.str z)) m rest Q hwfAcc'
              (validBytes_drop s _ hv) hple h
            have hgetn : mapGet m n = some (.str z) := by
              rw [(parseGo_frame recP hrecDrop fs _ par _ m rest h).1 n hnRest,
                mapGet_mapSet_self]
            refine ⟨(z ++ [0]) ++ bsR, ?_, ?_⟩
            · simp [packGo, hgetn, hpackR]
            · intro t
              have hzf : ∀ b ∈ z, (b != 0) = true :=
                fun b hb => mem_takeWhile_not_zero _ b hb
              have hzl : z.length ≤ 1000 := length_takeWhile_take s 1000
              have hstream : ((z ++ [0]) ++ bsR) ++ t = z ++ 0 :: (bsR ++ t) := by
                simp
              have hrc : readCString (z ++ 0 :: (bsR ++ t)) 1 1000 true false
                  = some ([z], z.length + 1) := by
                rw [readCString_one, takeWhile_take_append 1000 z (bsR ++ t) hzf hzl]
              have hdrp : (z ++ 0 :: (bsR ++ t)).drop (z.length + 1) = bsR ++ t :=
                drop_append_zero z (bsR ++ t)
              rw [hstream]
              simp [parseGo, hrc, hdrp]
              exact hreR t
          next hfz =>
            split at h
            next dflt c cv =>
              split at h
              next => exact Option.noConfusion h
              next g hg =>
                have hcK : c ∈ keysList acc := mapGet_some_mem acc c g hg
                have hcNotName : c ∉ protoNames (ProtoField.scalar n fmt
                    (ScalarSpec.cond dflt c cv) :: fs) :=
                  wf_mem_not_name _ (keysList acc) hwf c hcK
                have hcn : c ≠ n := by
                  intro hcontr
                  apply hcNotName
                  simp [protoNames, ProtoField.fname, hcontr]
                have hcRest : c ∉ protoNames fs := by
                  intro hcontr
                  apply hcNotName
                  simp [protoNames, ProtoField.fname]
                  right
                  simpa [protoNames] using hcontr
                split at h
                next ht =>
                  split at h
                  next => exact Option.noConfusion h
                  next hlen =>
                    obtain ⟨bsR, hpackR, hreR⟩ := ih (s.drop (fmtSize fmt)) par
                      (mapSet acc n (unpackVal fmt (s.take (fmtSize fmt)))) m rest Q
                      (by rw [keysList_mapSet acc n _ hkacc]; exact hwfRest)
                      (validBytes_drop s _ hv) hple h
                    have hchlen : (s.take (fmtSize fmt)).length = fmtSize fmt := by
                      simp only [List.length_take]
                      omega
                    obtain ⟨hpv, hup⟩ := packVal_unpack fmt (s.take (fmtSize fmt))
                      hfz hchlen (validBytes_take s _ hv)
                    have hgetn : mapGet m n
                        = some (unpackVal fmt (s.take (fmtSize fmt))) := by
                      rw [(parseGo_frame recP hrecDrop fs _ par _ m rest h).1 n hnRest,
                        mapGet_mapSet_self]
                    have hgetc : mapGet m c = some g := by
                      rw [(parseGo_frame recP hrecDrop fs _ par _ m rest h).1 c hcRest,
                        mapGet_mapSet_ne _ _ _ _ (fun hx => hcn hx.symm), hg]
                    have hbsFlen :
                        (leBytes (fmtSize fmt) (leNat (s.take (fmtSize fmt)))).length
                        = fmtSize fmt := leBytes_length _ _
                    refine ⟨leBytes (fmtSize fmt) (leNat (s.take (fmtSize fmt)))
                      ++ bsR, ?_, ?_⟩
                    · simp [packGo, hgetn, hfz, hgetc, ht, hpv, hpackR]
                    · intro t
                      have hlen2 : ¬ (leBytes (fmtSize fmt) (leNat (s.take (fmtSize fmt)))
                          ++ (bsR ++ t)).length < fmtSize fmt := by
                        simp [List.length_append, hbsFlen]
                      have htake : (leBytes (fmtSize fmt) (leNat (s.take (fmtSize fmt)))
                          ++ (bsR ++ t)).take (fmtSize fmt)
                          = leBytes (fmtSize fmt) (leNat (s.take (fmtSize fmt))) := by
                        have hta := List.take_left
                          (leBytes (fmtSize fmt) (leNat (s.take (fmtSize fmt)))) (bsR ++ t)
                        rwa [hbsFlen] at hta
                      have hdropF : (leBytes (fmtSize fmt) (leNat (s.take (fmtSize fmt)))
                          ++ (bsR ++ t)).drop (fmtSize fmt) = bsR ++ t := by
                        have hta := List.drop_left
                          (leBytes (fmtSize fmt) (leNat (s.take (fmtSize fmt)))) (bsR ++ t)
                        rwa [hbsFlen] at hta
                      simp [parseGo, hfz, hg, ht, hlen2, htake, hdropF, hup]
                      refine ⟨?_, hreR t⟩
                      rw [hbsFlen]
                      exact Nat.le_add_right _ _
                next ht =>
                  obtain ⟨bsR, hpackR, hreR⟩ := ih s par
                    (mapSet acc n dflt) m rest Q
                    (by rw [keysList_mapSet acc n _ hkacc]; exact hwfRest) hv hple h
                  have hgetn : mapGet m n = some dflt := by
                    rw [(parseGo_frame recP hrecDrop fs _ par _ m rest h).1 n hnRest,
                      mapGet_mapSet_self]
                  have hgetc : mapGet m c = some g := by
                    rw [(parseGo_frame recP hrecDrop fs _ par _ m rest h).1 c hcRest,
                      mapGet_mapSet_ne _ _ _ _ (fun hx => hcn hx.symm), hg]
                  refine ⟨bsR, ?_, ?_⟩
                  · simp [packGo, hgetn, hfz, hgetc, ht, hpackR]
                  · intro t
                    simp [parseGo, hfz, hg, ht]
                    exact hreR t
            next dflt =>
              split at h
              next => exact Option.noConfusion h
              next hlen =>
                obtain ⟨bsR, hpackR, hreR⟩ := ih (s.drop (fmtSize fmt)) par
                  (mapSet acc n (unpackVal fmt (s.take (fmtSize fmt)))) m rest Q
                  (by rw [keysList_mapSet acc n _ hkacc]; exact hwfRest)
                  (validBytes_drop s _ hv) hple h
                have hchlen : (s.take (fmtSize fmt)).length = fmtSize fmt := by
                  simp only [List.length_take]
                  omega
                obtain ⟨hpv, hup⟩ := packVal_unpack fmt (s.take (fmtSize fmt))
                  hfz hchlen (validBytes_take s _ hv)
                have hgetn : mapGet m n
                    = some (unpackVal fmt (s.take (fmtSize fmt))) := by
                  rw [(parseGo_frame recP hrecDrop fs _ par _ m rest h).1 n hnRest,
                    mapGet_mapSet_self]
                have hbsFlen :
                    (leBytes (fmtSize fmt) (leNat (s.take (fmtSize fmt)))).length
                    = fmtSize fmt := leBytes_length _ _
                refine ⟨leBytes (fmtSize fmt) (leNat (s.take (fmtSize fmt)))
                  ++ bsR, ?_, ?_⟩
                · simp [packGo, hgetn, hfz, hpv, hpackR]
                · intro t
                  have hlen2 : ¬ (leBytes (fmtSize fmt) (leNat (s.take (fmtSize fmt)))
                      ++ (bsR ++ t)).length < fmtSize fmt := by
                    simp [List.length_append, hbsFlen]
                  have htake : (leBytes (fmtSize fmt) (leNat (s.take (fmtSize fmt)))
                      ++ (bsR ++ t)).take (fmtSize fmt)
                      = leBytes (fmtSize fmt) (leNat (s.take (fmtSize fmt))) := by
                    have hta := List.take_left
                      (leBytes (fmtSize fmt) (leNat (s.take (fmtSize fmt)))) (bsR ++ t)
                    rwa [hbsFlen] at hta
                  have hdropF : (leBytes (fmtSize fmt) (leNat (s.take (fmtSize fmt)))
                      ++ (bsR ++ t)).drop (fmtSize fmt) = bsR ++ t := by
                    have hta := List.drop_left
                      (leBytes (fmtSize fmt) (leNat (s.take (fmtSize fmt)))) (bsR ++ t)
                    rwa [hbsFlen] at hta
                  simp [parseGo, hfz, hlen2, htake, hdropF, hup]
                  refine ⟨?_, hreR t⟩
                  rw [hbsFlen]
                  exact Nat.le_add_right _ _
      | group n sub c =>
          obtain ⟨hnK, hnRest, hcn, hcRest, hwfSub, hwfRest⟩ :=
            wf_group_parts (keysList acc) n sub c fs hwf
          have hkacc : hasKey acc n = false := hasKey_false_of_not_mem acc n hnK
          simp only [parseGo] at h
          split at h
          next => exact Option.noConfusion h
          next cv hcv =>
            split at h
            next => exact Option.noConfusion h
            next kk hkk =>
              split at h
              next => exact Option.noConfusion h
              next els s' hloop =>
                have hwfAcc' : wfFields (keysList (mapSet acc n (.grp els))) fs
                    = true := by
                  rw [keysList_mapSet acc n _ hkacc]
                  exact hwfRest
                have hv' : validBytes s' := by
                  obtain ⟨j, hj⟩ := parseLoop_drop _
                    (fun st mm r hb => hrecDrop sub st (some acc) [] mm r hb)
                    _ _ _ _ hloop
                  rw [hj]
                  exact validBytes_drop s j hv
                obtain ⟨bsR, hpackR, hreR⟩ := ih s' par
                  (mapSet acc n (.grp els)) m rest Q hwfAcc' hv' hple h
                have hframe := (parseGo_frame recP hrecDrop fs _ par _ m rest h).1
                have hgetn : mapGet m n = some (.grp els) := by
                  rw [hframe n hnRest, mapGet_mapSet_self]
                have plElem : parentLe (some acc) (some m) := by
                  intro k v hkv
                  simp only at hkv ⊢
                  have hkK : k ∈ keysList acc := mapGet_some_mem acc k v hkv
                  have hkNot := wf_mem_not_name _ (keysList acc) hwf k hkK
                  have hkRest : k ∉ protoNames fs := by
                    intro hcontr
                    apply hkNot
                    simp [protoNames, ProtoField.fname]
                    right
                    simpa [protoNames] using hcontr
                  have hkn : k ≠ n := by
                    intro hcontr
                    apply hkNot
                    simp [protoNames, ProtoField.fname, hcontr]
                  rw [hframe k hkRest, mapGet_mapSet_ne _ _ _ _
                    (fun hx => hkn hx.symm)]
                  exact hkv
                have hresolve : resolveCount m Q c = some cv := by
                  unfold resolveCount at hcv ⊢
                  by_cases hl : hasKey acc c = true
                  · rw [if_pos hl] at hcv
                    have : mapGet m c = some cv := by
                      have := plElem c cv
                      simp only at this
                      exact this hcv
                    rw [if_pos ((hasKey_true_iff m c).mpr ⟨cv, this⟩), this]
                  · have hgmc : mapGet m c = none := by
                      rw [hframe c hcRest, mapGet_mapSet_ne _ _ _ _
                        (fun hx => hcn hx.symm)]
                      exact (hasKey_false_iff acc c).mp (by
                        cases hb : hasKey acc c
                        · rfl
                        · exact absurd hb hl)
                    rw [if_neg (by rw [hasKey, hgmc]; simp)]
                    rw [if_neg hl] at hcv
                    cases par with
                    | none => exact Option.noConfusion hcv
                    | some p =>
                        have := hple c cv
                        simp only at this
                        cases Q with
                        | none => exact this hcv
                        | some q => exact this hcv
                have hElem : ∀ st e s₁, validBytes st →
                    recP sub st (some acc) [] = some (e, s₁) →
                    ∃ bsE, recK sub e (some m) = some (bsE, e, some m) ∧
                      ∀ t, recP sub (bsE ++ t) (some acc) [] = some (e, t) := by
                  intro st e s₁ hvst hpe
                  exact hrecRound sub st (some acc) e s₁ (some m) hwfSub hvst
                    plElem hpe
                obtain ⟨bsG, hpackG, hreG⟩ := roundLoop
                  (fun st => recP sub st (some acc) [])
                  (fun e cur => recK sub e (some cur)) n m els hgetn
                  (fun st e r hb => hrecDrop sub st (some acc) [] e r hb)
                  (fun st e s₁ hvst hse => hElem st e s₁ hvst hse)
                  kk.toNat 0 s els s' hv (by simp) hloop
                refine ⟨bsG ++ bsR, ?_, ?_⟩
                · simp [packGo, hgetn, hresolve, hkk, hpackG, hpackR]
                · intro t
                  have hassoc2 : (bsG ++ bsR) ++ t = bsG ++ (bsR ++ t) := by simp
                  simp only [parseGo, hcv, hkk, hassoc2, hreG]
                  exact hreR t

theorem roundD : ∀ (d : Nat) (proto : List ProtoField) (s : Bytes)
    (par : Option BVMap) (acc m : BVMap) (rest : Bytes) (Q : Option BVMap),
    wfFields (keysList acc) proto = true →
    validBytes s →
    parentLe par Q →
    parseD d proto s par acc = some (m, rest) →
    ∃ bs, packD d proto m Q = some (bs, m, Q) ∧
      ∀ t, parseD d proto (bs ++ t) par acc = some (m, t) := by
  intro d
  induction d with
  | zero =>
      intro proto s par acc m rest Q hwf hv hple h
      exact roundGo _ _ (fun sub st pr a mm r hb => by simp at hb)
        (fun sub st pr mm r Q2 _ _ _ hb => by simp at hb)
        proto s par acc m rest Q hwf hv hple h
  | succ dd ih =>
      intro proto s par acc m rest Q hwf hv hple h
      exact roundGo _ _
        (fun sub st pr a mm r hb => parseD_drop dd sub st pr a mm r hb)
        (fun sub st pr mm r Q2 hwf2 hv2 hple2 hb =>
          ih sub st pr [] mm r Q2 hwf2 hv2 hple2 hb)
        proto s par acc m rest Q hwf hv hple h

/-! ### Encoding skips an unsatisfied conditional field -/

theorem packGo_skip_cond (rec : List ProtoField → BVMap → Option BVMap →
    Option (Bytes × BVMap × Option BVMap))
    (hrec : ∀ sub e pr r, rec sub e pr = some r → r.2.1 = e ∧ r.2.2 = pr)
    (B A : String) (fmt : Fmt) (dflt v a : BVVal)
    (hfz : fmt ≠ .fz) (hne : bvBeq a v = false) :
    ∀ (pre post : List ProtoField) (m : BVMap) (p : Option BVMap),
    mapGet m A = some a → hasKey m B = true →
    packGo rec (pre ++ ProtoField.scalar B fmt (.cond dflt A v) :: post) m p
      = packGo rec (pre ++ post) m p := by
  intro pre
  induction pre with
  | nil =>
      intro post m p hA hB
      obtain ⟨w, hw⟩ := (hasKey_true_iff m B).mp hB
      simp [packGo, hw, hfz, hA, hne]
  | cons f pre ih =>
      intro post m p hA hB
      cases f with
      | scalar n2 fmt2 spec2 =>
          simp only [List.cons_append, packGo, List.append_eq,
            ih post m p hA hB]
      | group n2 sub2 c2 =>
          simp only [List.cons_append, packGo]
          split
          · rfl
          next v2 hvn =>
            split
            · rfl
            next cv2 hrc =>
              split
              · rfl
              next k2 hik =>
                split
                · rfl
                next b2 h1 hpl =>
                  have hh1 : h1 = m :=
                    packLoop_state _
                      (fun e cur rr hr => hrec sub2 e (some cur) rr hr)
                      n2 k2.toNat 0 v2 m b2 h1 hvn hpl
                  subst hh1
                  simp only [List.append_eq, ih post h1 p hA hB]

/-! ### The claims -/

/-- C1: the specification says the reconcile step of `update_BV_header`
appends or removes synthesized defaults until a nested list has the new
count.  The code appends exactly one default (and pops exactly one)
regardless of the difference, then indexes the old list once per new
count: growing `C` from 3 to 5 raises IndexError (modelled `none`), and
shrinking `C` from 3 to 1 returns a list of length 2, not 1. -/
theorem update_reconcile_bug :
    update_BV_header protoC1 oldC1 newC1 none none = none ∧
    (((update_BV_header protoC1 oldC1 newC1s none none).bind
        (fun mm => (mapGet mm "G").bind asGrpVal)).map List.length
      = some 2 ∧ (2 : Nat) ≠ 1) :=
  ⟨by rfl, by rfl, by decide⟩

/-- C2: decode-encode round trip.  A mapping decoded by
`parse_BV_header` from a byte stream under a well-formed descriptor
re-encodes with `pack_BV_header` to a block that decodes back to
exactly the same mapping, with nothing left over. -/
theorem parse_pack_roundtrip (proto : List ProtoField) (s : Bytes)
    (m : BVMap) (rest : Bytes)
    (hwf : wfProto proto = true) (hv : validBytes s)
    (h : parse_BV_header proto s none = some (m, rest)) :
    ∃ bs, pack_BV_header proto m none = some bs ∧
      parse_BV_header proto bs none = some (m, []) := by
  have hple : parentLe none none := fun k v hv2 => hv2
  obtain ⟨bs, hpack, hre⟩ :=
    roundD (protoListSize proto) proto s none [] m rest none hwf hv hple h
  refine ⟨bs, ?_, ?_⟩
  · unfold pack_BV_header
    rw [hpack]
    simp
  · unfold parse_BV_header
    have hfin := hre []
    simpa using hfin

/-- The round-trip theorem at the concrete scenario data. -/
theorem parse_pack_roundtrip_witness :
    ∃ bs, pack_BV_header protoC8 mapC8 none = some bs ∧
      parse_BV_header protoC8 bs none = some (mapC8, []) :=
  parse_pack_roundtrip protoC8 bytesC8 mapC8 []
    (by simp [wfProto, wfFields, protoC8, protoNames, ProtoField.fname])
    (by unfold validBytes; decide) (by rfl)

/-- C3: whenever the encoder produces a block, `calc_BV_header_size`
returns exactly its length: the two functions traverse the descriptor
identically and fail at the same points. -/
theorem calc_size_matches_pack (proto : List ProtoField) (m : BVMap)
    (parent : Option BVMap) (bs : Bytes)
    (h : pack_BV_header proto m parent = some bs) :
    calc_BV_header_size proto m parent = some bs.length := by
  unfold pack_BV_header at h
  unfold calc_BV_header_size
  cases hp : packD (protoListSize proto) proto m parent with
  | none => rw [hp] at h; simp at h
  | some r =>
      obtain ⟨bsr, h1, p1⟩ := r
      rw [hp] at h
      simp at h
      subst h
      rw [calcD_of_packD (protoListSize proto) proto m parent bsr h1 p1 hp]
      simp

/-- The size theorem at the concrete scenario data. -/
theorem calc_size_matches_pack_witness :
    calc_BV_header_size protoC8 mapC8 none = some bytesC8.length :=
  calc_size_matches_pack protoC8 mapC8 none bytesC8 (by rfl)

/-- C4: a conditional fixed-width field whose condition fails is
skipped by the encoder (no bytes, traversal continues) even though its
key is present in the mapping; the decoder consumes no bytes for it and
binds it to the declared default, which survives to the final mapping
when no later field reuses the name. -/
theorem conditional_skip (d : Nat) (pre post : List ProtoField)
    (B A : String) (fmt : Fmt) (dflt v a : BVVal) (m : BVMap)
    (p : Option BVMap) (hfz : fmt ≠ .fz) (hA : mapGet m A = some a)
    (hne : bvBeq a v = false) (hB : hasKey m B = true) :
    packD d (pre ++ ProtoField.scalar B fmt (.cond dflt A v) :: post) m p
      = packD d (pre ++ post) m p ∧
    (∀ (s : Bytes) (P : Option BVMap) (acc : BVMap) (g : BVVal),
      mapGet acc A = some g → bvBeq g v = false →
      parseD d (ProtoField.scalar B fmt (.cond dflt A v) :: post) s P acc
        = parseD d post s P (mapSet acc B dflt)) ∧
    (∀ (s : Bytes) (P : Option BVMap) (acc mz : BVMap) (r : Bytes) (g : BVVal),
      mapGet acc A = some g → bvBeq g v = false → B ∉ protoNames post →
      parseD d (ProtoField.scalar B fmt (.cond dflt A v) :: post) s P acc
        = some (mz, r) →
      mapGet mz B = some dflt) := by
  refine ⟨?_, ?_, ?_⟩
  · cases d with
    | zero =>
        exact packGo_skip_cond _ (fun sub e pr r hr => by simp at hr)
          B A fmt dflt v a hfz hne pre post m p hA hB
    | succ dd =>
        exact packGo_skip_cond _
          (fun sub e pr r hr => packD_state dd sub e pr r hr)
          B A fmt dflt v a hfz hne pre post m p hA hB
  · intro s P acc g hg hgne
    cases d with
    | zero => simp [parseD, parseGo, hfz, hg, hgne]
    | succ dd => simp [parseD, parseGo, hfz, hg, hgne]
  · intro s P acc mz r g hg hgne hnB h
    have hstep : parseD d (ProtoField.scalar B fmt (.cond dflt A v) :: post)
        s P acc = parseD d post s P (mapSet acc B dflt) := by
      cases d with
      | zero => simp [parseD, parseGo, hfz, hg, hgne]
      | succ dd => simp [parseD, parseGo, hfz, hg, hgne]
    rw [hstep] at h
    have hkeep := parseD_keys d post s P (mapSet acc B dflt) mz r h B hnB
    rw [hkeep, mapGet_mapSet_self]

/-- The conditional-skip theorem at concrete data: condition `A == 1`
fails since `A = 0`, so packing with `B` present emits the same bytes
as a descriptor without `B`, and parsing binds `B` to the default 7. -/
theorem conditional_skip_witness :
    packD 1 [ProtoField.scalar "B" .fh (.cond (.int 7) "A" (.int 1))]
      [("A", BVVal.int 0), ("B", BVVal.int 5)] none
      = packD 1 [] [("A", BVVal.int 0), ("B", BVVal.int 5)] none ∧
    parseD 1 [ProtoField.scalar "B" .fh (.cond (.int 7) "A" (.int 1))] [] none
      [("A", BVVal.int 0)]
      = parseD 1 [] [] none (mapSet [("A", BVVal.int 0)] "B" (.int 7)) :=
  ⟨(conditional_skip 1 [] [] "B" "A" .fh (.int 7) (.int 1) (.int 0)
      [("A", BVVal.int 0), ("B", BVVal.int 5)] none
      (by decide) (by rfl) (by rfl) (by rfl)).1,
   (conditional_skip 1 [] [] "B" "A" .fh (.int 7) (.int 1) (.int 0)
      [("A", BVVal.int 0), ("B", BVVal.int 5)] none
      (by decide) (by rfl) (by rfl) (by rfl)).2.1 [] none
      [("A", BVVal.int 0)] (.int 0) (by rfl) (by rfl)⟩

/-- C5: repeat-count resolution is local-first with parent fallback,
and the nested recursion of all three traversals receives the current
mapping as the parent: the decoder passes the accumulator being built,
the encoder and size calculator pass the threaded current dict. -/
theorem repeat_count_scoping :
    (∀ (acc : BVMap) (P : Option BVMap) (c : String), hasKey acc c = true →
      resolveCount acc P c = mapGet acc c) ∧
    (∀ (acc Q : BVMap) (c : String), hasKey acc c = false →
      resolveCount acc (some Q) c = mapGet Q c) ∧
    (∀ (d : Nat) (n : String) (sub : List ProtoField) (c : String)
      (s : Bytes) (P Pp : Option BVMap) (acc : BVMap), hasKey acc c = true →
      parseD d [ProtoField.group n sub c] s P acc
        = parseD d [ProtoField.group n sub c] s Pp acc) ∧
    (∀ (d : Nat) (n : String) (sub : List ProtoField) (c : String)
      (rest : List ProtoField) (s : Bytes) (par : Option BVMap) (acc : BVMap)
      (cv : BVVal) (k : Int), resolveCount acc par c = some cv →
      asIntVal cv = some k →
      parseD (d + 1) (ProtoField.group n sub c :: rest) s par acc
        = (match parseLoop (fun st => parseD d sub st (some acc) [])
              k.toNat s with
           | none => none
           | some (els, s2) =>
               parseD (d + 1) rest s2 par (mapSet acc n (.grp els)))) ∧
    (∀ (d : Nat) (n : String) (sub : List ProtoField) (c : String)
      (rest : List ProtoField) (h : BVMap) (p : Option BVMap) (v cv : BVVal)
      (k : Int), mapGet h n = some v → resolveCount h p c = some cv →
      asIntVal cv = some k →
      packD (d + 1) (ProtoField.group n sub c :: rest) h p
        = (match packLoop (fun e cur => packD d sub e (some cur)) n v 0
              k.toNat h with
           | none => none
           | some (b, h1) =>
               match packD (d + 1) rest h1 p with
               | none => none
               | some (bs, h2, p2) => some (b ++ bs, h2, p2))) ∧
    (∀ (d : Nat) (n : String) (sub : List ProtoField) (c : String)
      (rest : List ProtoField) (h : BVMap) (p : Option BVMap) (v cv : BVVal)
      (k : Int), mapGet h n = some v → resolveCount h p c = some cv →
      asIntVal cv = some k →
      calcD (d + 1) (ProtoField.group n sub c :: rest) h p
        = (match calcLoop (fun e cur => calcD d sub e (some cur)) n v 0
              k.toNat h with
           | none => none
           | some (b, h1) =>
               match calcD (d + 1) rest h1 p with
               | none => none
               | some (sz, h2, p2) => some (b + sz, h2, p2))) := by
  refine ⟨?_, ?_, ?_, ?_, ?_, ?_⟩
  · intro acc P c hl
    simp [resolveCount, hl]
  · intro acc Q c hl
    simp [resolveCount, hl]
  · intro d n sub c s P Pp acc hl
    cases d <;> simp [parseD, parseGo, resolveCount, hl]
  · intro d n sub c rest s par acc cv k hrc hik
    simp [parseD, parseGo, hrc, hik]
  · intro d n sub c rest h p v cv k hv hrc hik
    simp [packD, packGo, hv, hrc, hik]
  · intro d n sub c rest h p v cv k hv hrc hik
    simp [calcD, calcGo, hv, hrc, hik]

/-- The count-scoping theorem at concrete data: a local count of 2
shadows a parent count of 9, and with no local count the parent value
is used. -/
theorem repeat_count_scoping_witness :
    resolveCount [("n", BVVal.int 2)] (some [("n", BVVal.int 9)]) "n"
      = mapGet [("n", BVVal.int 2)] "n" ∧
    resolveCount [] (some [("n", BVVal.int 9)]) "n"
      = mapGet [("n", BVVal.int 9)] "n" :=
  ⟨repeat_count_scoping.1 [("n", BVVal.int 2)] (some [("n", BVVal.int 9)])
      "n" (by rfl),
   repeat_count_scoping.2.1 [] [("n", BVVal.int 9)] "n" (by rfl)⟩

/-- C6 counterexample: the claim says `_proto2default` gives every
conditional field its declared default (here `B` should map to 7).
The code leaves `B` bound to the empty-dict placeholder, because the
synthesized default of the governing field `A` (namely 0) does not
satisfy the condition `A == 1`. -/
theorem proto2default_cond_counterexample :
    proto2default protoC6 none
      = some [("A", BVVal.int 0), ("B", BVVal.emptyDict)] ∧
    BVVal.emptyDict ≠ BVVal.int 7 :=
  ⟨by rfl, by intro h; exact BVVal.noConfusion h⟩

/-- C6 (amended): one synthesizer step for a conditional field: the
field is first bound to the empty-dict placeholder, which is then
overwritten with the declared default exactly when the governing
field's already-synthesized value equals the required value; otherwise
the placeholder is kept. -/
theorem proto2default_cond_step (d : Nat) (B : String) (fmt : Fmt)
    (dflt : BVVal) (c : String) (cv : BVVal) (rest : List ProtoField)
    (parent : Option BVMap) (acc : BVMap) (g : BVVal)
    (hg : mapGet (mapSet acc B .emptyDict) c = some g) :
    (bvBeq g cv = true →
      p2dD d (ProtoField.scalar B fmt (.cond dflt c cv) :: rest) parent acc
        = p2dD d rest parent (mapSet (mapSet acc B .emptyDict) B dflt)) ∧
    (bvBeq g cv = false →
      p2dD d (ProtoField.scalar B fmt (.cond dflt c cv) :: rest) parent acc
        = p2dD d rest parent (mapSet acc B .emptyDict)) := by
  constructor <;> intro ht <;> cases d <;> simp [p2dD, p2dGo, hg, ht]

/-- The synthesizer step at concrete data: with `A` already 1 the
condition holds, so `B` is overwritten with its default 7. -/
theorem proto2default_cond_step_witness :
    p2dD 1 [ProtoField.scalar "B" .fh (.cond (.int 7) "A" (.int 1))] none
      [("A", BVVal.int 1)]
      = p2dD 1 [] none
          (mapSet (mapSet [("A", BVVal.int 1)] "B" .emptyDict) "B" (.int 7)) :=
  (proto2default_cond_step 1 "B" .fh (.int 7) "A" (.int 1) [] none
      [("A", BVVal.int 1)] (.int 1) (by rfl)).1 (by rfl)

/-- C7 counterexample: the claim says that finding fewer terminators
than requested strings raises an error.  With one string requested and
a buffer holding a single unterminated string, the scan returns
normally: the unterminated tail becomes the string, and the reported
offset (2) even exceeds the available data. -/
theorem readCString_counterexample :
    readCString [65] 1 1000 true false = some ([[65]], 2) := by rfl

/-- C7 (amended): the scan fails (an IndexError in the source, not the
documented UnderflowError) exactly when the lookahead window splits
into fewer chunks than the number of requested strings, that is, when
fewer than `n - 1` terminators are present; a buffer whose last string
is unterminated still yields that tail as the final string. -/
theorem readCString_failure_iff (s : Bytes) (n bufsize : Nat)
    (strip rewind : Bool) :
    readCString s n bufsize strip rewind = none
      ↔ (splitOnZero (s.take bufsize)).length < n := by
  unfold readCString
  by_cases h : n ≤ (splitOnZero (s.take bufsize)).length
  · simp only [h, if_true]
    simp
    omega
  · simp only [h, if_false]
    simp
    omega

/-- C8: the specification scenario: the ten bytes decode to a count of
2 and two group elements holding the floats 1.0 and 2.0 (raw
little-endian patterns 1065353216 and 1073741824), and the mapping
encodes back to the same ten bytes. -/
theorem scenario_roundtrip :
    parse_BV_header protoC8 bytesC8 none = some (mapC8, []) ∧
    pack_BV_header protoC8 mapC8 none = some bytesC8 :=
  ⟨by rfl, by rfl⟩

/-- C9 counterexample: the claim says hitting end of stream inside any
field raises an error.  A zero-terminated string field read from a
stream with no terminator succeeds, returning the remaining bytes as
the value rather than signalling an error. -/
theorem parse_eof_z_counterexample :
    parse_BV_header [ProtoField.scalar "s" .fz (.plain (.str []))]
      [104, 105] none = some ([("s", BVVal.str [104, 105])], []) := by rfl

/-- C9 (amended): for fixed-width scalar fields the decoder does fail
at end of stream: a plain field, or a conditional field whose condition
holds, propagates an error when fewer bytes remain than the field
width, and no default is substituted.  Zero-terminated string fields
never fail this way (see the counterexample). -/
theorem parse_eof_error (d : Nat) (n : String) (fmt : Fmt)
    (dflt dflt2 : BVVal) (c : String) (cv g : BVVal)
    (rest : List ProtoField) (s : Bytes) (P : Option BVMap) (acc : BVMap)
    (hfz : fmt ≠ .fz) (hshort : s.length < fmtSize fmt) :
    parseD d (ProtoField.scalar n fmt (.plain dflt) :: rest) s P acc
      = none ∧
    (mapGet acc c = some g → bvBeq g cv = true →
      parseD d (ProtoField.scalar n fmt (.cond dflt2 c cv) :: rest) s P acc
        = none) := by
  constructor
  · cases d <;> simp [parseD, parseGo, hfz, hshort]
  · intro hg ht
    cases d <;> simp [parseD, parseGo, hfz, hg, ht, hshort]

/-- The end-of-stream theorem at concrete data: a 4-byte integer field
against a 2-byte stream fails. -/
theorem parse_eof_error_witness :
    parseD 1 [ProtoField.scalar "x" .fi (.plain (.int 0))] [1, 2] none []
      = none :=
  (parse_eof_error 1 "x" .fi (.int 0) (.int 0) "c" (.int 0) (.int 0) []
      [1, 2] none [] (by decide) (by decide)).1

/-- C10: encoding and size calculation are read-only: the threaded
local dict and parent dict returned by the depth-indexed encoder and
size calculator are always exactly the ones passed in. -/
theorem pack_calc_readonly :
    (∀ (d : Nat) (proto : List ProtoField) (h : BVMap) (p : Option BVMap)
      (bs : Bytes) (h2 : BVMap) (p2 : Option BVMap),
      packD d proto h p = some (bs, h2, p2) → h2 = h ∧ p2 = p) ∧
    (∀ (d : Nat) (proto : List ProtoField) (h : BVMap) (p : Option BVMap)
      (sz : Nat) (h2 : BVMap) (p2 : Option BVMap),
      calcD d proto h p = some (sz, h2, p2) → h2 = h ∧ p2 = p) := by
  constructor
  · intro d proto h p bs h2 p2 hp
    exact packD_state d proto h p (bs, h2, p2) hp
  · intro d proto h p sz h2 p2 hp
    exact calcD_state d proto h p (sz, h2, p2) hp

/-- The read-only theorem at the concrete scenario data. -/
theorem pack_calc_readonly_witness :
    mapC8 = mapC8 ∧ (none : Option BVMap) = none :=
  pack_calc_readonly.1 (protoListSize protoC8) protoC8 mapC8 none bytesC8
    mapC8 none (by rfl)

end BV
